import Mathlib

/-!
# GoTransl: a line-oriented C-to-Go rewriter

Shallow embedding of `src/main.go`.  A Go `string` is a sequence of bytes; it is
represented here by a `List Char`, one `Char` per byte.  A Go run-time panic is
an `Except.error`.  The iteration order of a Go map is unspecified, so every
function that ranges over the `OneToOne` map takes the order in which the
rules are visited as an explicit argument.  Go draws that order anew at every
`range`: `runOrders` gives each line its own order, `run` is the case in which
all lines see the same one.
-/

namespace GoTransl

/-- Go `string`: a sequence of bytes. -/
abbrev Str := List Char

/-- The ways in which the program can panic. -/
inductive Err where
  /-- The explicit `panic("could not parse: '" + s + "'")` of `SwapTypeAndName`;
  the argument is the whole message. -/
  | couldNotParse (msg : Str)
  /-- Go run-time panic: index out of range. -/
  | indexOutOfRange
  /-- Go run-time panic: nil pointer dereference. -/
  | nilDeref
  deriving DecidableEq

/-! ## The pieces of Go's `strings` package that `main.go` uses -/

/-- Indexing `xs[i]` with Go's bounds check. -/
def idx {α : Type} (xs : List α) (i : Nat) : Except Err α :=
  match xs[i]? with
  | some x => .ok x
  | none => .error .indexOutOfRange

/-- Go `strings.TrimLeft(s, cutset)`. -/
def TrimLeft (s cutset : Str) : Str :=
  s.dropWhile (fun c => cutset.contains c)

/-- Go `strings.TrimRight(s, cutset)`. -/
def TrimRight (s cutset : Str) : Str :=
  (s.reverse.dropWhile (fun c => cutset.contains c)).reverse

/-- Go `strings.Trim(s, cutset)`. -/
def Trim (s cutset : Str) : Str :=
  TrimRight (TrimLeft s cutset) cutset

/-- Go `strings.Split(s, sep)` for a one-byte separator `sep` (every call in
`main.go` passes a one-byte separator).  The result is never empty. -/
def Split : Str → Char → List Str
  | [], _ => [[]]
  | c :: cs, sep =>
    if c = sep then [] :: Split cs sep
    else
      match Split cs sep with
      | [] => [[c]]
      | p :: ps => (c :: p) :: ps

/-- Go `strings.Contains(s, sub)` for a one-byte `sub`. -/
def Contains (s : Str) (sub : Char) : Bool :=
  s.contains sub

/-- The scan of `strings.Replace(s, old, new, -1)` for a non-empty `old`: the
first argument counts the bytes of a matched occurrence still to be skipped. -/
def replaceScan (old new : Str) : Nat → Str → Str
  | _, [] => []
  | k + 1, _ :: cs => replaceScan old new k cs
  | 0, c :: cs =>
    if old.isPrefixOf (c :: cs) then new ++ replaceScan old new (old.length - 1) cs
    else c :: replaceScan old new 0 cs

/-- Go `strings.Replace(s, old, new, -1)`: every non-overlapping occurrence of
`old`, found left to right, is replaced by `new`.  For an empty `old` Go inserts
`new` before every byte and at the end. -/
def Replace (s old new : Str) : Str :=
  if old = [] then new ++ s.flatMap (fun c => c :: new)
  else replaceScan old new 0 s

/-! ## The tables -/

/-- Type equivalences from C to Go (`FTypes`), in source order. -/
def FTypes : List (Str × Str) :=
  [ ("int".toList, "int".toList),
    ("void".toList, "".toList),
    ("static int".toList, "int".toList),
    ("static SDL_bool".toList, "bool".toList),
    ("static SDL_BlitFunc".toList, "BlitFunc".toList),
    ("static uint32".toList, "uint32".toList),
    ("while".toList, "for".toList),
    ("SDL_BlitFunc".toList, "BlitFunc".toList),
    ("SDL_BlitInfo".toList, "BlitInfo".toList),
    ("SDL_BlitMap".toList, "BlitMap".toList),
    ("SDL_Surface".toList, "Surface".toList),
    ("SDL_Rect".toList, "Rect".toList),
    ("uint64".toList, "uint64".toList),
    ("size_t".toList, "uint".toList),
    ("char".toList, "char".toList),
    ("const char".toList, "string".toList) ]

/-- Strings in C that are translated directly into another string in Go
(`OneToOne`), in source order. -/
def OneToOne : List (Str × Str) :=
  [ ("SDL_TRUE".toList, "true".toList),
    ("SDL_FALSE".toList, "false".toList),
    ("u_int64_t".toList, "uint64".toList),
    ("Uint32".toList, "uint32".toList),
    ("NULL".toList, "nil".toList),
    ("->".toList, ".".toList),
    ("~".toList, "^".toList),
    ("    ".toList, "\t".toList),
    ("#if".toList, "//#if".toList),
    ("#else".toList, "//#else".toList),
    ("#endif".toList, "//#endif".toList),
    ("const".toList, "".toList),
    ("map".toList, "Map".toList),
    ("if(".toList, "if (".toList) ]

/-- Go map read `m[k]` with the `ok` flag. -/
def mapGet (m : List (Str × Str)) (k : Str) : Option Str :=
  m.lookup k

/-- Go map read `m[k]`: the zero value `""` for a missing key. -/
def mapIndex (m : List (Str × Str)) (k : Str) : Str :=
  (mapGet m k).getD []

/-- For the state machine. -/
inductive State where
  | None | FnType | FnDecl | FnOpen | Comment | VarDecl
  deriving DecidableEq

/-- The Go struct `Func` (its field `Type` is called `Type_` here). -/
structure Func where
  Type_ : Str
  Header : Str
  deriving DecidableEq

/-! ## The functions of `main.go` -/

/-- The source's `MatchFnType`: is `s` a key of `FTypes`? -/
def MatchFnType (s : Str) : Bool :=
  FTypes.any (fun kv => kv.1 == s)

/-- The source's `CorrectTypeName`. -/
def CorrectTypeName (s : Str) : Str :=
  match mapGet FTypes s with
  | some v => v
  | none => s

/-- The source's `MatchLineComment`. -/
def MatchLineComment (s : Str) : Bool :=
  let t := TrimLeft s ['\t']
  decide (t.length > 1) && t.take 2 == "//".toList

/-- The source's `MatchScopeOpen`. -/
def MatchScopeOpen (s : Str) : Bool :=
  let t := TrimRight s [' ', '\t']
  decide (t.length > 0) && t.getLast? == some '\x7b'

/-- The loop `for k,v := range OneToOne { s = strings.Replace(s, k, v, -1) }`,
visiting the rules in the order `rules`. -/
def applyRules (rules : List (Str × Str)) (s : Str) : Str :=
  rules.foldl (fun s kv => Replace s kv.1 kv.2) s

/-- The source's `BasicClean`, with the rules of `OneToOne` visited in the order
`rules`. -/
def BasicClean (rules : List (Str × Str)) (s : Str) : Str :=
  let s := if decide (s.length > 0) && s.getLast? == some ';' then s.dropLast else s
  applyRules rules s

/-- The source's `SplitSpaceNoEmpty`. -/
def SplitSpaceNoEmpty (s : Str) : List Str :=
  (Split s ' ').foldl
    (fun out v =>
      let v := Trim v [' ', '\t']
      if v.length > 0 then out ++ [v] else out)
    []

/-- The message of the panic in `SwapTypeAndName`. -/
def parseMsg (s : Str) : Str :=
  "could not parse: '".toList ++ s ++ "'".toList

/-- The source's `SwapTypeAndName`: turns `int *a` into `a *int`. -/
def SwapTypeAndName (s : Str) : Except Err Str := do
  let p := SplitSpaceNoEmpty s
  if p.length = 0 then
    return []
  let p ←
    if p.length = 2 then do
      let p1 ← idx p 1
      let c ← idx p1 0
      let p0 ← idx p 0
      let p := if c = '*' then [p0, ['*'], p1.drop 1] else p
      let q0 ← idx p 0
      let l ← idx q0 (q0.length - 1)
      let q1 ← idx p 1
      pure (if l = '*' then [q0.dropLast, ['*'], q1] else p)
    else pure p
  let p0 ← idx p 0
  let p := p.set 0 (CorrectTypeName p0)
  match p with
  | [a, b] => pure (b ++ " ".toList ++ a)
  | [a, _, c] => pure (c ++ " *".toList ++ a)
  | _ => throw (.couldNotParse (parseMsg s))

/-- The source's `FixFuncParams`. -/
def FixFuncParams (s : Str) : Except Err Str := do
  let inp := Split s '('
  let in1 ← idx inp 1
  let sec := Split in1 ')'
  let sec0 ← idx sec 0
  let params := Split sec0 ','
  let in0 ← idx inp 0
  let out ← params.foldlM
    (fun out v => do
      let r ← SwapTypeAndName v
      pure (out ++ r ++ [',']))
    (in0 ++ ['('])
  let out := if out.getLast? == some ',' then out.dropLast else out
  let sec1 ← idx sec 1
  pure (out ++ [')'] ++ sec1)

/-- The source's `MatchVarDecl`.  `spl[0]` always exists, because
`strings.Split` never returns an empty slice (`Split_ne_nil` below). -/
def MatchVarDecl (s : Str) : Bool :=
  let t := TrimLeft s ['\t']
  let spl := Split t ' '
  FTypes.any (fun kv => kv.1 == spl.headD [])

/-- The source's `MatchBadIf`. -/
def MatchBadIf (s : Str) : Bool :=
  let t := Trim s [' ', '\t']
  decide (t.length > 2) && t.take 2 == "if".toList && t.getLast? != some '\x7b'

/-- The source's `FixVarDecl`. -/
def FixVarDecl (s : Str) : Except Err Str := do
  let assign := Contains s '='
  let s := Replace s [','] [' ']
  let s := TrimLeft s ['\t', ' ']
  let spl := Split s ' '
  if assign then
    let s1 ← idx spl 1
    let c ← idx s1 0
    let s1 := if c = '*' then s1.drop 1 else s1
    let s3 ← idx spl 3
    return s1 ++ " := ".toList ++ s3
  let out := (spl.drop 1).foldl
    (fun out v => if v.length > 0 then out ++ v ++ [','] else out)
    "var ".toList
  let s0 ← idx spl 0
  return out.dropLast ++ [' '] ++ CorrectTypeName s0

/-- The variables of the loop in `main`: the state, the pending header `cur`
(`none` is the nil pointer), the output lines `out`, and the line numbers
printed by the `Potentially bad 'if' on line %d` diagnostic, oldest first. -/
structure Driver where
  state : State
  cur : Option Func
  out : List Str
  diag : List Nat
  deriving DecidableEq

/-- The variables before the first line is read. -/
def Driver.init : Driver :=
  ⟨State.None, none, ["package gdl".toList], []⟩

/-- The part of the loop body after the `switch`. -/
def common (d : Driver) (s : Str) : Except Err Driver := do
  if decide (s.length > 8) && s.take 8 == "#include".toList then
    return d
  let s ← if MatchVarDecl s then FixVarDecl s else pure s
  let diag := if MatchBadIf s then d.diag ++ [d.out.length + 1] else d.diag
  return ⟨d.state, d.cur, d.out ++ [s], diag⟩

/-- The loop body of `main` after `s := BasicClean(scan.Text())`. -/
def stepCleaned (d : Driver) (s : Str) : Except Err Driver := do
  match d.state with
  | State.None =>
    if MatchFnType s then
      return ⟨State.FnType, some ⟨mapIndex FTypes s, []⟩, d.out, d.diag⟩
    common d s
  | State.FnType =>
    match d.cur with
    | none => throw .nilDeref
    | some cur =>
      if MatchScopeOpen s then
        let cur : Func := if s.length > 1 then ⟨cur.Type_, cur.Header ++ s.dropLast⟩ else cur
        let post := "func ".toList
        let post := post ++ cur.Header
        let post := if cur.Type_ ≠ "void".toList then post ++ " ".toList ++ cur.Type_ else post
        let post := post ++ " \x7b".toList
        let r ← FixFuncParams post
        return ⟨State.None, some cur, d.out ++ [r], d.diag⟩
      else
        return ⟨d.state, some ⟨cur.Type_, cur.Header ++ s⟩, d.out, d.diag⟩
  | _ => common d s

/-- One iteration of the loop in `main` on the scanned line `line`, with the
rules of `OneToOne` visited in the order `rules`. -/
def step (rules : List (Str × Str)) (d : Driver) (line : Str) : Except Err Driver :=
  stepCleaned d (BasicClean rules line)

/-- The loop of `main` over the scanned lines, when every line sees the rules
in the same order `rules`. -/
def run (rules : List (Str × Str)) (lines : List Str) : Except Err Driver :=
  lines.foldlM (step rules) Driver.init

/-- The loop of `main` over the scanned lines, each paired with the order in
which `BasicClean` visits the rules on that line: Go draws the order of a
`range` over a map anew at every loop. -/
def runOrders (lines : List (List (Str × Str) × Str)) : Except Err Driver :=
  lines.foldlM (fun d ol => step ol.1 d ol.2) Driver.init

/-- The loop of `main` on lines that have already been through `BasicClean`. -/
def runCleaned (cleaned : List Str) : Except Err Driver :=
  cleaned.foldlM stepCleaned Driver.init

/-- The non-empty pieces of `s` between spaces: its space-separated tokens. -/
def spaceTokens (s : Str) : List Str :=
  (Split s ' ').filter (fun v => v ≠ [])

/-- A weight on bytes under which the replacement of every rule of `OneToOne`
is heavier than its pattern (`OneToOne_weight` below). -/
def byteWeight (c : Char) : Int :=
  if c = '/' ∨ c = ' ' then 1
  else if c = '\t' then 5
  else if c = 'c' ∨ c = '_' ∨ c = 'U' ∨ c = '~' ∨ c = 'm' ∨ c = '-' then -1
  else 0

/-- The weight of a text: the sum of the weights of its bytes. -/
def textWeight (s : Str) : Int :=
  (s.map byteWeight).sum

deriving instance DecidableEq for Except

/-! ## Rule application -/

theorem applyRules_nil (s : Str) : applyRules [] s = s := rfl

theorem applyRules_cons (kv : Str × Str) (rules : List (Str × Str)) (s : Str) :
    applyRules (kv :: rules) s = applyRules rules (Replace s kv.1 kv.2) := rfl

/-- Rules that leave `s` alone leave it alone in any order. -/
theorem applyRules_fixed (rules : List (Str × Str)) (s : Str)
    (h : ∀ kv ∈ rules, Replace s kv.1 kv.2 = s) : applyRules rules s = s := by
  induction rules with
  | nil => rfl
  | cons kv rest ih =>
    rw [applyRules_cons, h kv (List.mem_cons_self _ _)]
    exact ih (fun kv' hkv' => h kv' (List.mem_cons_of_mem _ hkv'))

/-- When exactly the rule `r` changes `s`, into a text `t` that no rule changes,
the result is `t` as soon as `r` is among the rules, in any order. -/
theorem applyRules_single (rules : List (Str × Str)) (r : Str × Str) (s t : Str)
    (hs : ∀ kv ∈ rules, Replace s kv.1 kv.2 = if kv = r then t else s)
    (ht : ∀ kv ∈ rules, Replace t kv.1 kv.2 = t) :
    applyRules rules s = if r ∈ rules then t else s := by
  induction rules with
  | nil => simp [applyRules_nil]
  | cons kv rest ih =>
    have hs' : ∀ kv' ∈ rest, Replace s kv'.1 kv'.2 = if kv' = r then t else s :=
      fun kv' hkv' => hs kv' (List.mem_cons_of_mem _ hkv')
    have ht' : ∀ kv' ∈ rest, Replace t kv'.1 kv'.2 = t :=
      fun kv' hkv' => ht kv' (List.mem_cons_of_mem _ hkv')
    rw [applyRules_cons, hs kv (List.mem_cons_self _ _)]
    by_cases hkv : kv = r
    · subst hkv
      simp [applyRules_fixed rest t ht']
    · have hne : ¬ r = kv := fun h => hkv h.symm
      simp only [hkv, if_false, List.mem_cons, hne, false_or]
      exact ih hs' ht'

/-- A line that, once its trailing `;` is gone, no rule changes. -/
theorem BasicClean_fixed (rules : List (Str × Str)) (hperm : rules.Perm OneToOne) (s t : Str)
    (hstrip : BasicClean [] s = t)
    (h : ∀ kv ∈ OneToOne, Replace t kv.1 kv.2 = t) : BasicClean rules s = t := by
  have : BasicClean rules s = applyRules rules (BasicClean [] s) := rfl
  rw [this, hstrip]
  exact applyRules_fixed rules t (fun kv hkv => h kv (hperm.mem_iff.mp hkv))

/-- A line that, once its trailing `;` is gone, exactly one rule changes. -/
theorem BasicClean_single (rules : List (Str × Str)) (hperm : rules.Perm OneToOne)
    (r : Str × Str) (s u t : Str) (hr : r ∈ OneToOne)
    (hstrip : BasicClean [] s = u)
    (hs : ∀ kv ∈ OneToOne, Replace u kv.1 kv.2 = if kv = r then t else u)
    (ht : ∀ kv ∈ OneToOne, Replace t kv.1 kv.2 = t) : BasicClean rules s = t := by
  have : BasicClean rules s = applyRules rules (BasicClean [] s) := rfl
  rw [this, hstrip,
    applyRules_single rules r u t (fun kv hkv => hs kv (hperm.mem_iff.mp hkv))
      (fun kv hkv => ht kv (hperm.mem_iff.mp hkv)),
    if_pos (hperm.mem_iff.mpr hr)]

/-- The loop of `main` cleans each line and then runs the rest of the body. -/
theorem run_eq_runCleaned (rules : List (Str × Str)) (lines : List Str) :
    run rules lines = runCleaned (lines.map (BasicClean rules)) := by
  unfold run runCleaned
  generalize Driver.init = d
  induction lines generalizing d with
  | nil => rfl
  | cons l ls ih =>
    simp only [List.map_cons, List.foldlM_cons, step]
    cases stepCleaned d (BasicClean rules l) with
    | error e => rfl
    | ok d' => exact ih d'

/-! ## C1: the end-to-end example -/

/-- The loop of `main` cleans each line, in the order drawn for that line, and
then runs the rest of the body. -/
theorem runOrders_eq_runCleaned (lines : List (List (Str × Str) × Str)) :
    runOrders lines = runCleaned (lines.map (fun ol => BasicClean ol.1 ol.2)) := by
  unfold runOrders runCleaned
  generalize Driver.init = d
  induction lines generalizing d with
  | nil => rfl
  | cons l ls ih =>
    simp only [List.map_cons, List.foldlM_cons, step]
    cases stepCleaned d (BasicClean l.1 l.2) with
    | error e => rfl
    | ok d' => exact ih d'

/-- The loop with one order for every line is the loop in which every line
draws that order. -/
theorem run_eq_runOrders (rules : List (Str × Str)) (lines : List Str) :
    run rules lines = runOrders (lines.map (fun l => (rules, l))) := by
  rw [run_eq_runCleaned, runOrders_eq_runCleaned, List.map_map]
  rfl

/-- The output of the example, whatever order of the rules each line draws. -/
theorem example_out (o1 o2 o3 o4 : List (Str × Str)) (h1 : o1.Perm OneToOne)
    (h2 : o2.Perm OneToOne) (h3 : o3.Perm OneToOne) (h4 : o4.Perm OneToOne) :
    (runOrders [(o1, "int".toList), (o2, "myFunc(int a, char *b) \x7b".toList),
      (o3, "    int x;".toList), (o4, "\x7d".toList)]).map Driver.out
      = .ok ["package gdl".toList, "func myFunc(a int,b *char)  int \x7b".toList,
          "var x int".toList, "\x7d".toList] := by
  rw [runOrders_eq_runCleaned]
  simp only [List.map_cons, List.map_nil]
  rw [BasicClean_fixed o1 h1 "int".toList "int".toList (by decide) (by decide),
    BasicClean_fixed o2 h2 "myFunc(int a, char *b) \x7b".toList
      "myFunc(int a, char *b) \x7b".toList (by decide) (by decide),
    BasicClean_single o3 h3 ("    ".toList, "\t".toList) "    int x;".toList
      "    int x".toList "\tint x".toList (by decide) (by decide) (by decide) (by decide),
    BasicClean_fixed o4 h4 "\x7d".toList "\x7d".toList (by decide) (by decide)]
  decide

/-- C1 (amended): whatever order of the `OneToOne` rules each of the four lines
draws, the driver loop on the lines `int`, `myFunc(int a, char *b) {`,
`    int x;`, `}` yields, after `package gdl`, exactly three lines: the header
made of `func myFunc(a int`, a comma, `b *char)`, one or more spaces and `int {`
(the spacing around the comma and the number of spaces before `int` are left
open); then `var x int` with no leading tab; then `}`. -/
theorem C1_example_output (o1 o2 o3 o4 : List (Str × Str)) (h1 : o1.Perm OneToOne)
    (h2 : o2.Perm OneToOne) (h3 : o3.Perm OneToOne) (h4 : o4.Perm OneToOne) :
    ∃ sep gap : Str, sep.filter (fun c => c ≠ ' ') = [','] ∧ gap ≠ [] ∧ (∀ c ∈ gap, c = ' ') ∧
      (runOrders [(o1, "int".toList), (o2, "myFunc(int a, char *b) \x7b".toList),
        (o3, "    int x;".toList), (o4, "\x7d".toList)]).map Driver.out
        = .ok ["package gdl".toList,
            "func myFunc(a int".toList ++ sep ++ "b *char)".toList ++ gap ++ "int \x7b".toList,
            "var x int".toList, "\x7d".toList] :=
  ⟨[','], "  ".toList, by decide, by decide, by decide, example_out o1 o2 o3 o4 h1 h2 h3 h4⟩

/-- Witness of C1 with every line drawing the source order of the rules. -/
theorem C1_example_output_witness :
    ∃ sep gap : Str, sep.filter (fun c => c ≠ ' ') = [','] ∧ gap ≠ [] ∧ (∀ c ∈ gap, c = ' ') ∧
      (runOrders [(OneToOne, "int".toList), (OneToOne, "myFunc(int a, char *b) \x7b".toList),
        (OneToOne, "    int x;".toList), (OneToOne, "\x7d".toList)]).map Driver.out
        = .ok ["package gdl".toList,
            "func myFunc(a int".toList ++ sep ++ "b *char)".toList ++ gap ++ "int \x7b".toList,
            "var x int".toList, "\x7d".toList] :=
  C1_example_output OneToOne OneToOne OneToOne OneToOne (List.Perm.refl _) (List.Perm.refl _)
    (List.Perm.refl _) (List.Perm.refl _)

/-- C1 as stated fails: whatever order of the rules each line draws, the
example does not yield the lines `func myFunc(a int, b *string) int {`, a tab
and `var x int`, `}`. -/
theorem C1_stated_output_refuted :
    ¬ ∃ o1 o2 o3 o4 : List (Str × Str),
      o1.Perm OneToOne ∧ o2.Perm OneToOne ∧ o3.Perm OneToOne ∧ o4.Perm OneToOne ∧
      (runOrders [(o1, "int".toList), (o2, "myFunc(int a, char *b) \x7b".toList),
        (o3, "    int x;".toList), (o4, "\x7d".toList)]).map Driver.out
        = .ok ["package gdl".toList, "func myFunc(a int, b *string) int \x7b".toList,
            "\tvar x int".toList, "\x7d".toList] := by
  rintro ⟨o1, o2, o3, o4, h1, h2, h3, h4, h⟩
  rw [example_out o1 o2 o3 o4 h1 h2 h3 h4] at h
  exact absurd h (by decide)

/-! ## C2: the minimal header for every key of `FTypes` -/

/-- No rule changes a key of `FTypes` other than `const char`. -/
theorem FTypes_keys_fixed :
    ∀ k ∈ FTypes, k.1 ≠ "const char".toList →
      BasicClean [] k.1 = k.1 ∧ ∀ kv ∈ OneToOne, Replace k.1 kv.1 kv.2 = k.1 := by
  decide

/-- The cleaned form of a key of `FTypes`, under any order of the rules. -/
theorem BasicClean_key (rules : List (Str × Str)) (hperm : rules.Perm OneToOne)
    (K : Str) (hK : K ∈ FTypes.map Prod.fst) :
    BasicClean rules K = if K = "const char".toList then " char".toList else K := by
  obtain ⟨k, hk, rfl⟩ := List.mem_map.mp hK
  by_cases hc : k.1 = "const char".toList
  · rw [if_pos hc, hc]
    exact BasicClean_single rules hperm ("const".toList, "".toList) "const char".toList
      "const char".toList " char".toList (by decide) (by decide) (by decide) (by decide)
  · rw [if_neg hc]
    exact BasicClean_fixed rules hperm k.1 k.1 (FTypes_keys_fixed k hk hc).1
      (FTypes_keys_fixed k hk hc).2

/-- The line `name() {` is not changed by cleaning. -/
theorem BasicClean_name (rules : List (Str × Str)) (hperm : rules.Perm OneToOne) :
    BasicClean rules "name() \x7b".toList = "name() \x7b".toList :=
  BasicClean_fixed rules hperm _ _ (by decide) (by decide)

/-- The loop on the cleaned forms of a key and of `name() {`. -/
theorem runCleaned_key :
    ∀ k ∈ FTypes,
      (runCleaned [if k.1 = "const char".toList then " char".toList else k.1,
        "name() \x7b".toList]).map Driver.out
        = .ok (if k.1 = "const char".toList then
            ["package gdl".toList, " char".toList, "name() \x7b".toList]
          else
            ["package gdl".toList,
              "func name() ".toList ++ " ".toList ++ k.2 ++ " \x7b".toList]) := by
  decide

/-- Reading `FTypes` at the key of one of its entries gives that entry's value. -/
theorem mapIndex_key : ∀ k ∈ FTypes, mapIndex FTypes k.1 = k.2 := by
  decide

/-- The output for a key and `name() {`, under any order of the rules. -/
theorem header_out (rules : List (Str × Str)) (hperm : rules.Perm OneToOne)
    (K : Str) (hK : K ∈ FTypes.map Prod.fst) :
    (run rules [K, "name() \x7b".toList]).map Driver.out
      = .ok (if K = "const char".toList then
          ["package gdl".toList, " char".toList, "name() \x7b".toList]
        else
          ["package gdl".toList,
            "func name() ".toList ++ " ".toList ++ mapIndex FTypes K ++ " \x7b".toList]) := by
  rw [run_eq_runCleaned]
  simp only [List.map_cons, List.map_nil]
  rw [BasicClean_key rules hperm K hK, BasicClean_name rules hperm]
  obtain ⟨k, hk, rfl⟩ := List.mem_map.mp hK
  rw [mapIndex_key k hk]
  exact runCleaned_key k hk

/-- The output for a key and `name() {`, whatever order of the rules each of
the two lines draws. -/
theorem header_out_orders (o1 o2 : List (Str × Str)) (h1 : o1.Perm OneToOne)
    (h2 : o2.Perm OneToOne) (K : Str) (hK : K ∈ FTypes.map Prod.fst) :
    (runOrders [(o1, K), (o2, "name() \x7b".toList)]).map Driver.out
      = .ok (if K = "const char".toList then
          ["package gdl".toList, " char".toList, "name() \x7b".toList]
        else
          ["package gdl".toList,
            "func name() ".toList ++ " ".toList ++ mapIndex FTypes K ++ " \x7b".toList]) := by
  rw [runOrders_eq_runCleaned]
  simp only [List.map_cons, List.map_nil]
  rw [BasicClean_key o1 h1 K hK, BasicClean_name o2 h2]
  obtain ⟨k, hk, rfl⟩ := List.mem_map.mp hK
  rw [mapIndex_key k hk]
  exact runCleaned_key k hk

/-- C2 (amended): for every key `K` of `FTypes` other than `void`, whatever
order of the `OneToOne` rules each of the two lines draws, the driver loop on
the lines `K` and `name() {` emits after `package gdl`: for `K = const char` the
two lines ` char` and `name() {` (no header is started); for every other `K`
exactly one line, made of `func name()`, one or more spaces (their number is
left open), `FTypes[K]` and ` {`. -/
theorem C2_minimal_header (o1 o2 : List (Str × Str)) (h1 : o1.Perm OneToOne)
    (h2 : o2.Perm OneToOne) (K : Str) (hK : K ∈ FTypes.map Prod.fst)
    (hvoid : K ≠ "void".toList) :
    ∃ gap : Str, gap ≠ [] ∧ (∀ c ∈ gap, c = ' ') ∧
      (runOrders [(o1, K), (o2, "name() \x7b".toList)]).map Driver.out
        = .ok (if K = "const char".toList then
            ["package gdl".toList, " char".toList, "name() \x7b".toList]
          else
            ["package gdl".toList,
              "func name()".toList ++ gap ++ mapIndex FTypes K ++ " \x7b".toList]) := by
  have _ := hvoid
  refine ⟨"  ".toList, by decide, by decide, ?_⟩
  rw [header_out_orders o1 o2 h1 h2 K hK]
  rfl

/-- Witness of C2 with both lines drawing the source order of the rules, at the
key `SDL_Rect`. -/
theorem C2_minimal_header_witness :
    ∃ gap : Str, gap ≠ [] ∧ (∀ c ∈ gap, c = ' ') ∧
      (runOrders [(OneToOne, "SDL_Rect".toList), (OneToOne, "name() \x7b".toList)]).map
          Driver.out
        = .ok ["package gdl".toList,
            "func name()".toList ++ gap ++ "Rect".toList ++ " \x7b".toList] :=
  C2_minimal_header OneToOne OneToOne (List.Perm.refl _) (List.Perm.refl _) "SDL_Rect".toList
    (by decide) (by decide)

/-- C2 as stated fails: whatever order of the rules each line draws, the key
`int` does not give the line `name() int {`, nor the key `const char` the line
`name() string {`. -/
theorem C2_stated_header_refuted :
    (¬ ∃ o1 o2 : List (Str × Str), o1.Perm OneToOne ∧ o2.Perm OneToOne ∧
      (runOrders [(o1, "int".toList), (o2, "name() \x7b".toList)]).map Driver.out
        = .ok ["package gdl".toList, "name() int \x7b".toList]) ∧
    (¬ ∃ o1 o2 : List (Str × Str), o1.Perm OneToOne ∧ o2.Perm OneToOne ∧
      (runOrders [(o1, "const char".toList), (o2, "name() \x7b".toList)]).map Driver.out
        = .ok ["package gdl".toList, "name() string \x7b".toList]) := by
  refine ⟨?_, ?_⟩
  · rintro ⟨o1, o2, h1, h2, h⟩
    rw [header_out_orders o1 o2 h1 h2 "int".toList (by decide)] at h
    exact absurd h (by decide)
  · rintro ⟨o1, o2, h1, h2, h⟩
    rw [header_out_orders o1 o2 h1 h2 "const char".toList (by decide)] at h
    exact absurd h (by decide)

/-! ## Facts about the `strings` functions -/

theorem Split_ne_nil (s : Str) (c : Char) : Split s c ≠ [] := by
  cases s with
  | nil => simp [Split]
  | cons x xs =>
    unfold Split
    split_ifs
    · simp
    · split <;> simp

theorem Split_of_not_mem (s : Str) (c : Char) (h : c ∉ s) : Split s c = [s] := by
  induction s with
  | nil => rfl
  | cons x xs ih =>
    have hx : ¬ x = c := fun e => h (e ▸ List.mem_cons_self _ _)
    have hxs : c ∉ xs := fun e => h (List.mem_cons_of_mem _ e)
    unfold Split
    rw [if_neg hx, ih hxs]

theorem Split_append_sep (a b : Str) (c : Char) (h : c ∉ a) :
    Split (a ++ c :: b) c = a :: Split b c := by
  induction a with
  | nil => simp [Split]
  | cons x xs ih =>
    have hx : ¬ x = c := fun e => h (e ▸ List.mem_cons_self _ _)
    have hxs : c ∉ xs := fun e => h (List.mem_cons_of_mem _ e)
    rw [List.cons_append, Split, if_neg hx, ih hxs]

theorem not_mem_of_mem_Split (s : Str) (c : Char) :
    ∀ p ∈ Split s c, c ∉ p := by
  induction s with
  | nil => simp [Split]
  | cons x xs ih =>
    intro p hp
    unfold Split at hp
    split_ifs at hp with hx
    · rcases List.mem_cons.mp hp with rfl | hp
      · simp
      · exact ih p hp
    · split at hp
      · rcases List.mem_singleton.mp hp with rfl
        simpa using fun e => hx e.symm
      · rename_i q qs hq
        rcases List.mem_cons.mp hp with rfl | hp
        · have := ih q (hq ▸ List.mem_cons_self _ _)
          simp only [List.mem_cons, not_or]
          exact ⟨fun e => hx e.symm, this⟩
        · exact ih p (hq ▸ List.mem_cons_of_mem _ hp)

theorem subset_of_mem_Split (s : Str) (c : Char) :
    ∀ p ∈ Split s c, ∀ x ∈ p, x ∈ s := by
  induction s with
  | nil => simp [Split]
  | cons y ys ih =>
    intro p hp x hx
    unfold Split at hp
    split_ifs at hp with hy
    · rcases List.mem_cons.mp hp with rfl | hp
      · simp at hx
      · exact List.mem_cons_of_mem _ (ih p hp x hx)
    · split at hp
      · rcases List.mem_singleton.mp hp with rfl
        rcases List.mem_singleton.mp hx with rfl
        exact List.mem_cons_self _ _
      · rename_i q qs hq
        rcases List.mem_cons.mp hp with rfl | hp
        · rcases List.mem_cons.mp hx with rfl | hx
          · exact List.mem_cons_self _ _
          · exact List.mem_cons_of_mem _ (ih q (hq ▸ List.mem_cons_self _ _) x hx)
        · exact List.mem_cons_of_mem _ (ih p (hq ▸ List.mem_cons_of_mem _ hp) x hx)

theorem TrimLeft_of_not_mem (s cutset : Str) (h : ∀ x ∈ s, x ∉ cutset) :
    TrimLeft s cutset = s := by
  cases s with
  | nil => rfl
  | cons x xs =>
    have hx : x ∉ cutset := h x (List.mem_cons_self _ _)
    simp [TrimLeft, List.dropWhile, hx]

theorem TrimRight_of_not_mem (s cutset : Str) (h : ∀ x ∈ s, x ∉ cutset) :
    TrimRight s cutset = s := by
  have h' : ∀ x ∈ s.reverse, x ∉ cutset := fun x hx => h x (List.mem_reverse.mp hx)
  have := TrimLeft_of_not_mem s.reverse cutset h'
  unfold TrimLeft at this
  unfold TrimRight
  rw [this, List.reverse_reverse]

theorem Trim_of_not_mem (s cutset : Str) (h : ∀ x ∈ s, x ∉ cutset) :
    Trim s cutset = s := by
  unfold Trim
  rw [TrimLeft_of_not_mem s cutset h, TrimRight_of_not_mem s cutset h]

/-- The loop of `SplitSpaceNoEmpty` is a map followed by a filter. -/
theorem foldl_trim_eq (l : List Str) (acc : List Str) :
    l.foldl (fun out v =>
        let v := Trim v [' ', '\t']
        if v.length > 0 then out ++ [v] else out) acc
      = acc ++ (l.map (fun v => Trim v [' ', '\t'])).filter (fun v => v ≠ []) := by
  induction l generalizing acc with
  | nil => simp
  | cons v vs ih =>
    simp only [List.foldl_cons, List.map_cons]
    rw [ih]
    by_cases hv : Trim v [' ', '\t'] = []
    · simp [hv]
    · have : 0 < (Trim v [' ', '\t']).length := List.length_pos.mpr hv
      simp [hv, this]

theorem SplitSpaceNoEmpty_eq (s : Str) :
    SplitSpaceNoEmpty s
      = ((Split s ' ').map (fun v => Trim v [' ', '\t'])).filter (fun v => v ≠ []) := by
  unfold SplitSpaceNoEmpty
  rw [foldl_trim_eq]
  rfl

/-- Every token that `SplitSpaceNoEmpty` returns is non-empty. -/
theorem SplitSpaceNoEmpty_ne_nil (s : Str) : ∀ v ∈ SplitSpaceNoEmpty s, v ≠ [] := by
  intro v hv
  rw [SplitSpaceNoEmpty_eq] at hv
  simpa using (List.mem_filter.mp hv).2

/-- Without tabs, `SplitSpaceNoEmpty` returns the space-separated tokens. -/
theorem SplitSpaceNoEmpty_eq_spaceTokens (s : Str) (h : '\t' ∉ s) :
    SplitSpaceNoEmpty s = spaceTokens s := by
  rw [SplitSpaceNoEmpty_eq]
  unfold spaceTokens
  congr 1
  conv_rhs => rw [← List.map_id (Split s ' ')]
  apply List.map_congr_left
  intro p hp
  apply Trim_of_not_mem
  intro x hx hcut
  simp only [List.mem_cons, List.mem_singleton, List.not_mem_nil, or_false] at hcut
  rcases hcut with rfl | rfl
  · exact not_mem_of_mem_Split s ' ' p hp hx
  · exact h (subset_of_mem_Split s ' ' p hp _ hx)

theorem idx_last {α : Type} (l : List α) (h : l ≠ []) :
    idx l (l.length - 1) = .ok (l.getLast h) := by
  unfold idx
  rw [List.getLast_eq_getElem]
  rw [List.getElem?_eq_getElem]

theorem idx_cons_zero {α : Type} (x : α) (xs : List α) : idx (x :: xs) 0 = .ok x := by
  simp [idx]

theorem idx_cons_succ {α : Type} (x : α) (xs : List α) (n : Nat) :
    idx (x :: xs) (n + 1) = idx xs n := by
  simp [idx]

theorem idx_nil {α : Type} (n : Nat) : idx ([] : List α) n = .error .indexOutOfRange := rfl

theorem ok_bind {α β : Type} (a : α) (f : α → Except Err β) :
    (Except.ok a >>= f) = f a := rfl

theorem error_bind {α β : Type} (e : Err) (f : α → Except Err β) :
    ((Except.error e : Except Err α) >>= f) = Except.error e := rfl

theorem pure_eq_ok {α : Type} (a : α) : (pure a : Except Err α) = Except.ok a := rfl

theorem throw_eq_error {α : Type} (e : Err) : (throw e : Except Err α) = Except.error e := rfl

/-! ## `SwapTypeAndName` by the number of tokens -/

theorem SwapTypeAndName_nil (s : Str) (h : SplitSpaceNoEmpty s = []) :
    SwapTypeAndName s = .ok [] := by
  simp [SwapTypeAndName, h, pure_eq_ok]

theorem SwapTypeAndName_one (s a : Str) (h : SplitSpaceNoEmpty s = [a]) :
    SwapTypeAndName s = .error (.couldNotParse (parseMsg s)) := by
  simp [SwapTypeAndName, h, idx_cons_zero, ok_bind, pure_eq_ok, throw_eq_error]

theorem SwapTypeAndName_three (s a b c : Str) (h : SplitSpaceNoEmpty s = [a, b, c]) :
    SwapTypeAndName s = .ok (c ++ " *".toList ++ CorrectTypeName a) := by
  simp [SwapTypeAndName, h, idx_cons_zero, ok_bind, pure_eq_ok, throw_eq_error]

theorem SwapTypeAndName_many (s a b c d : Str) (rest : List Str)
    (h : SplitSpaceNoEmpty s = a :: b :: c :: d :: rest) :
    SwapTypeAndName s = .error (.couldNotParse (parseMsg s)) := by
  simp [SwapTypeAndName, h, idx_cons_zero, ok_bind, pure_eq_ok, throw_eq_error]

/-- The result of `SwapTypeAndName` on two non-empty tokens `a`, `b`. -/
theorem SwapTypeAndName_two (s a b : Str) (h : SplitSpaceNoEmpty s = [a, b])
    (ha : a ≠ []) (hb : b ≠ []) :
    SwapTypeAndName s = .ok
      (if b.head? = some '*' then
        (if a.getLast? = some '*' then
          "*".toList ++ " *".toList ++ CorrectTypeName a.dropLast
        else b.drop 1 ++ " *".toList ++ CorrectTypeName a)
      else
        (if a.getLast? = some '*' then
          b ++ " *".toList ++ CorrectTypeName a.dropLast
        else b ++ " ".toList ++ CorrectTypeName a)) := by
  obtain ⟨b0, b', rfl⟩ := List.exists_cons_of_ne_nil hb
  have hl := idx_last a ha
  have hgl : a.getLast? = some (a.getLast ha) := List.getLast?_eq_getLast _ ha
  simp only [SwapTypeAndName, h]
  by_cases hb0 : b0 = '*' <;> by_cases hla : a.getLast ha = '*' <;>
    simp [idx_cons_zero, idx_cons_succ, ok_bind, pure_eq_ok, hb0, hla, hl, hgl]

/-! ## C3 and C4: `SwapTypeAndName` -/

/-- C3: for every parameter element `s` without a tab, `SwapTypeAndName s`
aborts with the `could not parse` error if and only if `s` has exactly 1 or at
least 4 non-empty space-separated tokens; with 0, 2 or 3 tokens it returns a
string. -/
theorem C3_swap_aborts_iff (s : Str) (h : '\t' ∉ s) :
    (SwapTypeAndName s = .error (.couldNotParse (parseMsg s))
        ↔ (spaceTokens s).length = 1 ∨ 4 ≤ (spaceTokens s).length) ∧
      ((spaceTokens s).length = 0 ∨ (spaceTokens s).length = 2 ∨ (spaceTokens s).length = 3
        → ∃ r, SwapTypeAndName s = .ok r) := by
  have htok := SplitSpaceNoEmpty_eq_spaceTokens s h
  have hne := SplitSpaceNoEmpty_ne_nil s
  rw [htok] at hne
  generalize spaceTokens s = p at htok hne
  match p, htok, hne with
  | [], htok, _ =>
    simp [SwapTypeAndName_nil s htok]
  | [a], htok, _ =>
    simp [SwapTypeAndName_one s a htok]
  | [a, b], htok, hne =>
    have ha : a ≠ [] := hne a (by simp)
    have hb : b ≠ [] := hne b (by simp)
    simp [SwapTypeAndName_two s a b htok ha hb]
  | [a, b, c], htok, _ =>
    simp [SwapTypeAndName_three s a b c htok]
  | a :: b :: c :: d :: rest, htok, _ =>
    simp [SwapTypeAndName_many s a b c d rest htok]

/-- Witness of C3: the one-token element `int` aborts. -/
theorem C3_swap_aborts_iff_witness :
    (SwapTypeAndName "int".toList = .error (.couldNotParse (parseMsg "int".toList))
        ↔ (spaceTokens "int".toList).length = 1 ∨ 4 ≤ (spaceTokens "int".toList).length) ∧
      ((spaceTokens "int".toList).length = 0 ∨ (spaceTokens "int".toList).length = 2
          ∨ (spaceTokens "int".toList).length = 3
        → ∃ r, SwapTypeAndName "int".toList = .ok r) :=
  C3_swap_aborts_iff "int".toList (by decide)

/-- The tokens of `T *x`. -/
theorem SplitSpaceNoEmpty_pointer (T x : Str) (hT : T ≠ [])
    (hTs : ' ' ∉ T) (hTt : '\t' ∉ T) (hxs : ' ' ∉ x) (hxt : '\t' ∉ x) :
    SplitSpaceNoEmpty (T ++ " *".toList ++ x) = [T, '*' :: x] := by
  have hsx : ' ' ∉ '*' :: x := by
    simp only [List.mem_cons, not_or]
    exact ⟨by decide, hxs⟩
  have htx : '\t' ∉ '*' :: x := by
    simp only [List.mem_cons, not_or]
    exact ⟨by decide, hxt⟩
  have hcut : ∀ v : Str, ' ' ∉ v → '\t' ∉ v → Trim v [' ', '\t'] = v := by
    intro v h1 h2
    apply Trim_of_not_mem
    intro c hc hcut
    simp only [List.mem_cons, List.mem_singleton, List.not_mem_nil, or_false] at hcut
    rcases hcut with rfl | rfl
    · exact h1 hc
    · exact h2 hc
  have hs : T ++ " *".toList ++ x = T ++ ' ' :: ('*' :: x) := by
    simp
  rw [SplitSpaceNoEmpty_eq, hs, Split_append_sep T _ ' ' hTs, Split_of_not_mem _ ' ' hsx]
  simp [hcut T hTs hTt, hcut _ hsx htx, hT]

/-- C4: for non-empty tokens `T` and `x` without spaces or tabs, `T` not ending
in `*`, `SwapTypeAndName` turns `T *x` into `x *` followed by
`CorrectTypeName T`; in particular `int *a` becomes `a *int`. -/
theorem C4_swap_pointer (T x : Str) (hT : T ≠ []) (hx : x ≠ [])
    (hTs : ' ' ∉ T) (hTt : '\t' ∉ T) (hxs : ' ' ∉ x) (hxt : '\t' ∉ x)
    (hlast : T.getLast? ≠ some '*') :
    SwapTypeAndName (T ++ " *".toList ++ x) = .ok (x ++ " *".toList ++ CorrectTypeName T)
      ∧ SwapTypeAndName "int *a".toList = .ok "a *int".toList := by
  have _ := hx
  refine ⟨?_, by decide⟩
  rw [SwapTypeAndName_two _ T ('*' :: x) (SplitSpaceNoEmpty_pointer T x hT hTs hTt hxs hxt) hT
    (by simp)]
  simp [hlast]

/-- Witness of C4: `SDL_Rect *r` becomes `r *Rect`. -/
theorem C4_swap_pointer_witness :
    SwapTypeAndName ("SDL_Rect".toList ++ " *".toList ++ "r".toList)
        = .ok ("r".toList ++ " *".toList ++ CorrectTypeName "SDL_Rect".toList)
      ∧ SwapTypeAndName "int *a".toList = .ok "a *int".toList :=
  C4_swap_pointer "SDL_Rect".toList "r".toList (by decide) (by decide) (by decide) (by decide)
    (by decide) (by decide) (by decide)

/-! ## C5 and C6: `FixVarDecl` -/

/-- Replacing a one-byte pattern by one byte maps over the bytes. -/
theorem Replace_single (s : Str) (a b : Char) :
    Replace s [a] [b] = s.map (fun c => if c = a then b else c) := by
  unfold Replace
  rw [if_neg (by simp)]
  induction s with
  | nil => rfl
  | cons c cs ih =>
    by_cases hc : c = a
    · subst hc
      simp [replaceScan, List.isPrefixOf, ih]
    · have hne : ¬ a = c := fun e => hc e.symm
      simp [replaceScan, List.isPrefixOf, hc, hne, ih]

/-- Replacing a byte that does not occur changes nothing. -/
theorem Replace_single_of_not_mem (s : Str) (a b : Char) (h : a ∉ s) :
    Replace s [a] [b] = s := by
  rw [Replace_single]
  conv_rhs => rw [← List.map_id s]
  apply List.map_congr_left
  intro c hc
  have : ¬ c = a := fun e => h (e ▸ hc)
  simp [this]

theorem comma_to_space_of_not_mem (v : Str) (h : ',' ∉ v) :
    v.map (fun c => if c = ',' then ' ' else c) = v := by
  rw [← Replace_single, Replace_single_of_not_mem v ',' ' ' h]

theorem intercalate_cons_cons (sep a b : Str) (l : List Str) :
    List.intercalate sep (a :: b :: l) = a ++ sep ++ List.intercalate sep (b :: l) := by
  simp [List.intercalate, List.intersperse]

theorem intercalate_singleton (sep a : Str) : List.intercalate sep [a] = a := by
  simp [List.intercalate, List.intersperse]

/-- The pieces of a comma-separated name list once its commas are spaces. -/
theorem Split_names (rest : List Str) (n : Str)
    (hs : ∀ v ∈ n :: rest, ' ' ∉ v) (hc : ∀ v ∈ n :: rest, ',' ∉ v) :
    Split ((List.intercalate ", ".toList (n :: rest)).map
        (fun c => if c = ',' then ' ' else c)) ' '
      = n :: rest.flatMap (fun v => [[], v]) := by
  induction rest generalizing n with
  | nil =>
    rw [intercalate_singleton, comma_to_space_of_not_mem n (hc n (by simp)),
      Split_of_not_mem n ' ' (hs n (by simp))]
    rfl
  | cons m r ih =>
    have hs' : ∀ v ∈ m :: r, ' ' ∉ v := fun v hv => hs v (List.mem_cons_of_mem _ hv)
    have hc' : ∀ v ∈ m :: r, ',' ∉ v := fun v hv => hc v (List.mem_cons_of_mem _ hv)
    rw [intercalate_cons_cons]
    simp only [List.map_append, comma_to_space_of_not_mem n (hc n (by simp))]
    have : (", ".toList).map (fun c => if c = ',' then ' ' else c) = [' ', ' '] := by decide
    have hsp : ∀ Z : Str, Split (' ' :: Z) ' ' = [] :: Split Z ' ' := fun Z => by
      simp [Split]
    rw [this, List.append_assoc]
    simp only [List.cons_append, List.nil_append]
    rw [Split_append_sep n _ ' ' (hs n (by simp)), hsp, ih m hs' hc']
    simp

/-- The loop of `FixVarDecl` over those pieces. -/
theorem foldl_names (rest : List Str) (n : Str) (acc : Str)
    (hne : ∀ v ∈ n :: rest, v ≠ []) :
    (n :: rest.flatMap (fun v => [[], v])).foldl
        (fun out v => if v.length > 0 then out ++ v ++ [','] else out) acc
      = acc ++ List.intercalate ",".toList (n :: rest) ++ [','] := by
  induction rest generalizing n acc with
  | nil =>
    have : 0 < n.length := List.length_pos.mpr (hne n (by simp))
    simp [intercalate_singleton, this]
  | cons m r ih =>
    have hne' : ∀ v ∈ m :: r, v ≠ [] := fun v hv => hne v (List.mem_cons_of_mem _ hv)
    have hn : 0 < n.length := List.length_pos.mpr (hne n (by simp))
    have step : (n :: (m :: r).flatMap (fun v => [[], v])).foldl
        (fun out v => if v.length > 0 then out ++ v ++ [','] else out) acc
        = (m :: r.flatMap (fun v => [[], v])).foldl
            (fun out v => if v.length > 0 then out ++ v ++ [','] else out)
            (acc ++ n ++ [',']) := by
      simp [hn]
    rw [step, ih m (acc ++ n ++ [',']) hne', intercalate_cons_cons]
    simp

theorem TrimLeft_of_head (T rest : Str) (hT : T ≠ []) (hs : ' ' ∉ T) (ht : '\t' ∉ T) :
    TrimLeft (T ++ rest) ['\t', ' '] = T ++ rest := by
  obtain ⟨c, cs, rfl⟩ := List.exists_cons_of_ne_nil hT
  have h1 : ¬ c = '\t' := fun e => ht (e ▸ List.mem_cons_self _ _)
  have h2 : ¬ c = ' ' := fun e => hs (e ▸ List.mem_cons_self _ _)
  simp [TrimLeft, List.dropWhile, h1, h2]

theorem not_mem_intercalate (c : Char) (sep : Str) (l : List Str) (hsep : c ∉ sep)
    (h : ∀ v ∈ l, c ∉ v) : c ∉ List.intercalate sep l := by
  induction l with
  | nil => simp [List.intercalate]
  | cons a t ih =>
    cases t with
    | nil =>
      rw [intercalate_singleton]
      exact h a (by simp)
    | cons b t =>
      rw [intercalate_cons_cons]
      simp only [List.mem_append, not_or]
      exact ⟨⟨h a (by simp), hsep⟩, ih (fun v hv => h v (List.mem_cons_of_mem _ hv))⟩

theorem Contains_eq_false (s : Str) (c : Char) (h : c ∉ s) : Contains s c = false := by
  simpa [Contains] using h

theorem Contains_eq_true (s : Str) (c : Char) (h : c ∈ s) : Contains s c = true := by
  simpa [Contains] using h

/-- C5: for a type token `T` and a non-empty list of name tokens (all tokens
non-empty and free of spaces, tabs, commas and `=`), `FixVarDecl` applied to
`T`, a space and the names joined by `, ` returns `var `, the names joined by
`,`, a space and `CorrectTypeName T`. -/
theorem C5_fixvardecl_names (T : Str) (names : List Str) (hnames : names ≠ [])
    (hT : T ≠ []) (hTs : ' ' ∉ T) (hTt : '\t' ∉ T) (hTc : ',' ∉ T) (hTe : '=' ∉ T)
    (hne : ∀ v ∈ names, v ≠ []) (hs : ∀ v ∈ names, ' ' ∉ v) (ht : ∀ v ∈ names, '\t' ∉ v)
    (hc : ∀ v ∈ names, ',' ∉ v) (he : ∀ v ∈ names, '=' ∉ v) :
    FixVarDecl (T ++ " ".toList ++ List.intercalate ", ".toList names)
      = .ok ("var ".toList ++ List.intercalate ",".toList names ++ " ".toList
          ++ CorrectTypeName T) := by
  have _ := ht
  obtain ⟨n, rest, rfl⟩ := List.exists_cons_of_ne_nil hnames
  have hnoeq : Contains (T ++ " ".toList ++ List.intercalate ", ".toList (n :: rest)) '='
      = false := by
    apply Contains_eq_false
    simp only [List.mem_append, not_or]
    exact ⟨⟨hTe, by decide⟩, not_mem_intercalate '=' _ _ (by decide) he⟩
  have hrep : Replace (T ++ " ".toList ++ List.intercalate ", ".toList (n :: rest)) [','] [' ']
      = T ++ ' ' :: (List.intercalate ", ".toList (n :: rest)).map
          (fun c => if c = ',' then ' ' else c) := by
    rw [Replace_single]
    simp only [List.map_append, comma_to_space_of_not_mem T hTc]
    simp
  have hsplit : Split (T ++ ' ' :: (List.intercalate ", ".toList (n :: rest)).map
      (fun c => if c = ',' then ' ' else c)) ' '
      = T :: n :: rest.flatMap (fun v => [[], v]) := by
    rw [Split_append_sep T _ ' ' hTs, Split_names rest n hs hc]
  have hdl : ∀ X : Str, (X ++ [',']).dropLast = X := fun X => List.dropLast_concat
  unfold FixVarDecl
  simp only [hnoeq, hrep, TrimLeft_of_head T _ hT hTs hTt, hsplit, List.drop_succ_cons,
    List.drop_zero, foldl_names rest n _ hne, idx_cons_zero, ok_bind, pure_eq_ok, hdl]
  simp

/-- Witness of C5: the cleaned form of `SDL_Rect a, b;`. -/
theorem C5_fixvardecl_names_witness :
    FixVarDecl ("SDL_Rect".toList ++ " ".toList
        ++ List.intercalate ", ".toList ["a".toList, "b".toList])
      = .ok ("var ".toList ++ List.intercalate ",".toList ["a".toList, "b".toList]
          ++ " ".toList ++ CorrectTypeName "SDL_Rect".toList) :=
  C5_fixvardecl_names "SDL_Rect".toList ["a".toList, "b".toList] (by decide) (by decide)
    (by decide) (by decide) (by decide) (by decide) (by decide) (by decide) (by decide)
    (by decide) (by decide)

/-- The pieces of `T n = b`. -/
theorem Split_assign (T n b : Str) (hTs : ' ' ∉ T) (hns : ' ' ∉ n) (hbs : ' ' ∉ b) :
    Split (T ++ " ".toList ++ n ++ " = ".toList ++ b) ' ' = [T, n, ['='], b] := by
  have e : T ++ " ".toList ++ n ++ " = ".toList ++ b
      = T ++ ' ' :: (n ++ ' ' :: (['='] ++ ' ' :: b)) := by simp
  rw [e, Split_append_sep T _ ' ' hTs, Split_append_sep n _ ' ' hns,
    Split_append_sep ['='] _ ' ' (by decide), Split_of_not_mem b ' ' hbs]

/-- The result of `FixVarDecl` on `T n = b` for any second token `n`. -/
theorem FixVarDecl_assign (T n b : Str) (hT : T ≠ []) (hn : n ≠ [])
    (hTs : ' ' ∉ T) (hTt : '\t' ∉ T) (hTc : ',' ∉ T)
    (hns : ' ' ∉ n) (hnc : ',' ∉ n) (hbs : ' ' ∉ b) (hbc : ',' ∉ b) :
    FixVarDecl (T ++ " ".toList ++ n ++ " = ".toList ++ b)
      = .ok ((if n.head? = some '*' then n.drop 1 else n) ++ " := ".toList ++ b) := by
  obtain ⟨c, cs, rfl⟩ := List.exists_cons_of_ne_nil hn
  have hassign : Contains (T ++ " ".toList ++ (c :: cs) ++ " = ".toList ++ b) '=' = true := by
    apply Contains_eq_true
    simp
  have hrep : Replace (T ++ " ".toList ++ (c :: cs) ++ " = ".toList ++ b) [','] [' ']
      = T ++ (" ".toList ++ (c :: cs) ++ " = ".toList ++ b) := by
    rw [Replace_single_of_not_mem]
    · simp
    · simp only [List.mem_append, not_or]
      exact ⟨⟨⟨⟨hTc, by decide⟩, hnc⟩, by decide⟩, hbc⟩
  have hsplit : Split (T ++ (" ".toList ++ (c :: cs) ++ " = ".toList ++ b)) ' '
      = [T, c :: cs, ['='], b] := by
    rw [← Split_assign T (c :: cs) b hTs hns hbs]
    simp
  unfold FixVarDecl
  simp only [hassign, hrep, TrimLeft_of_head T _ hT hTs hTt, hsplit, idx_cons_zero,
    idx_cons_succ, ok_bind, pure_eq_ok, if_true]
  by_cases hc : c = '*' <;> simp [hc]

/-- C6: for a type token `T`, a name token `a` and a value token `b` that are
non-empty and free of spaces, tabs, commas and `=` (the name token is the name
itself, so it does not begin with the pointer marker `*`), `FixVarDecl` returns
`a := b` both on `T a = b` and on `T *a = b`, where the name carries one leading
pointer marker. -/
theorem C6_fixvardecl_assign (T a b : Str) (hT : T ≠ []) (ha : a ≠ []) (hb : b ≠ [])
    (hTs : ' ' ∉ T) (hTt : '\t' ∉ T) (hTc : ',' ∉ T) (hTe : '=' ∉ T)
    (has : ' ' ∉ a) (hat : '\t' ∉ a) (hac : ',' ∉ a) (hae : '=' ∉ a)
    (hbs : ' ' ∉ b) (hbt : '\t' ∉ b) (hbc : ',' ∉ b) (hbe : '=' ∉ b)
    (hstar : a.head? ≠ some '*') :
    FixVarDecl (T ++ " ".toList ++ a ++ " = ".toList ++ b) = .ok (a ++ " := ".toList ++ b)
      ∧ FixVarDecl (T ++ " ".toList ++ ('*' :: a) ++ " = ".toList ++ b)
          = .ok (a ++ " := ".toList ++ b) := by
  have _ := hb
  have _ := hTe
  have _ := hat
  have _ := hae
  have _ := hbt
  have _ := hbe
  constructor
  · rw [FixVarDecl_assign T a b hT ha hTs hTt hTc has hac hbs hbc, if_neg hstar]
  · have hs : ' ' ∉ '*' :: a := by
      simp only [List.mem_cons, not_or]
      exact ⟨by decide, has⟩
    have hc : ',' ∉ '*' :: a := by
      simp only [List.mem_cons, not_or]
      exact ⟨by decide, hac⟩
    rw [FixVarDecl_assign T ('*' :: a) b hT (by simp) hTs hTt hTc hs hc hbs hbc]
    simp

/-- Witness of C6: `int x = 0` and `int *x = 0` both become `x := 0`. -/
theorem C6_fixvardecl_assign_witness :
    FixVarDecl ("int".toList ++ " ".toList ++ "x".toList ++ " = ".toList ++ "0".toList)
        = .ok ("x".toList ++ " := ".toList ++ "0".toList)
      ∧ FixVarDecl ("int".toList ++ " ".toList ++ ('*' :: "x".toList) ++ " = ".toList
          ++ "0".toList) = .ok ("x".toList ++ " := ".toList ++ "0".toList) :=
  C6_fixvardecl_assign "int".toList "x".toList "0".toList (by decide) (by decide) (by decide)
    (by decide) (by decide) (by decide) (by decide) (by decide) (by decide) (by decide)
    (by decide) (by decide) (by decide) (by decide) (by decide) (by decide)

/-! ## C7 and C8: the order and the repetition of the literal substitutions -/

/-- The failing input of C7: with the rules in source order `  const  int x;`
is cleaned to `    int x` (the four-space rule runs before `const` is erased),
with the rules in the reverse order it is cleaned to a tab and `int x`. -/
theorem C7_order_dependent :
    OneToOne.reverse.Perm OneToOne
      ∧ BasicClean OneToOne "  const  int x;".toList = "    int x".toList
      ∧ BasicClean OneToOne.reverse "  const  int x;".toList = "\tint x".toList
      ∧ BasicClean OneToOne "  const  int x;".toList
          ≠ BasicClean OneToOne.reverse "  const  int x;".toList :=
  ⟨List.reverse_perm _, by decide, by decide, by decide⟩

/-- A text without an occurrence of `old` is not changed by the scan. -/
theorem replaceScan_of_no_prefix (old new : Str) (s : Str)
    (h : ∀ t, t <:+ s → ¬ old <+: t) : replaceScan old new 0 s = s := by
  induction s with
  | nil => rfl
  | cons c cs ih =>
    have hp : old.isPrefixOf (c :: cs) = false := by
      rw [Bool.eq_false_iff]
      intro hp
      exact h (c :: cs) (List.suffix_refl _) (List.isPrefixOf_iff_prefix.mp hp)
    rw [replaceScan, hp]
    simp only [Bool.false_eq_true, if_false]
    rw [ih (fun t ht => h t (ht.trans (List.suffix_cons c cs)))]

/-- A text in which `old` does not occur is not changed by `Replace`. -/
theorem Replace_of_not_infix (s old new : Str) (h : ¬ old <:+: s) :
    Replace s old new = s := by
  unfold Replace
  by_cases ho : old = []
  · exact absurd (ho ▸ (List.nil_infix : [] <:+: s)) h
  · rw [if_neg ho]
    apply replaceScan_of_no_prefix
    intro t ht hpre
    exact h (List.infix_iff_prefix_suffix.mpr ⟨t, hpre, ht⟩)

/-- When only the rule `r` changes `s`, into `t`, and no other rule changes
`t`, rules without repetition that contain `r` turn `s` into `t`. -/
theorem applyRules_once (rules : List (Str × Str)) (r : Str × Str) (s t : Str)
    (hnd : rules.Nodup) (hr : r ∈ rules) (hrs : Replace s r.1 r.2 = t)
    (hs : ∀ kv ∈ rules, kv ≠ r → Replace s kv.1 kv.2 = s)
    (ht : ∀ kv ∈ rules, kv ≠ r → Replace t kv.1 kv.2 = t) :
    applyRules rules s = t := by
  induction rules with
  | nil => simp at hr
  | cons kv rest ih =>
    rw [applyRules_cons]
    have hnd' := List.nodup_cons.mp hnd
    by_cases hkv : kv = r
    · subst hkv
      rw [hrs]
      apply applyRules_fixed
      intro kv' hkv'
      exact ht kv' (List.mem_cons_of_mem _ hkv') (fun e => hnd'.1 (e ▸ hkv'))
    · rw [hs kv (List.mem_cons_self _ _) hkv]
      have hr' : r ∈ rest := by
        rcases List.mem_cons.mp hr with e | e
        · exact absurd e.symm hkv
        · exact e
      exact ih hnd'.2 hr' (fun kv' hkv' => hs kv' (List.mem_cons_of_mem _ hkv'))
        (fun kv' hkv' => ht kv' (List.mem_cons_of_mem _ hkv'))

/-- Under every order of the rules `#if` is cleaned to `//#if`, and a second
pass over `//#if` gives `////#if`. -/
theorem directive_twice (rules : List (Str × Str)) (hperm : rules.Perm OneToOne) :
    BasicClean rules "#if".toList = "//#if".toList
      ∧ applyRules rules "//#if".toList = "////#if".toList := by
  have hnd : rules.Nodup := hperm.nodup_iff.mpr (by decide)
  have hr : ("#if".toList, "//#if".toList) ∈ rules := hperm.mem_iff.mpr (by decide)
  have h1 : ∀ kv ∈ OneToOne, kv ≠ ("#if".toList, "//#if".toList) →
      Replace "#if".toList kv.1 kv.2 = "#if".toList := by decide
  have h2 : ∀ kv ∈ OneToOne, kv ≠ ("#if".toList, "//#if".toList) →
      Replace "//#if".toList kv.1 kv.2 = "//#if".toList := by decide
  have h3 : ∀ kv ∈ OneToOne, kv ≠ ("#if".toList, "//#if".toList) →
      Replace "////#if".toList kv.1 kv.2 = "////#if".toList := by decide
  constructor
  · have : BasicClean rules "#if".toList = applyRules rules "#if".toList := rfl
    rw [this]
    exact applyRules_once rules _ _ _ hnd hr (by decide)
      (fun kv hkv => h1 kv (hperm.mem_iff.mp hkv)) (fun kv hkv => h2 kv (hperm.mem_iff.mp hkv))
  · exact applyRules_once rules _ _ _ hnd hr (by decide)
      (fun kv hkv => h2 kv (hperm.mem_iff.mp hkv)) (fun kv hkv => h3 kv (hperm.mem_iff.mp hkv))

theorem textWeight_nil : textWeight [] = 0 := rfl

theorem textWeight_cons (c : Char) (s : Str) :
    textWeight (c :: s) = byteWeight c + textWeight s := by
  simp [textWeight]

theorem textWeight_append (s t : Str) : textWeight (s ++ t) = textWeight s + textWeight t := by
  simp [textWeight]

/-- The replacement of every rule is heavier than its pattern, which is not empty. -/
theorem OneToOne_weight :
    ∀ kv ∈ OneToOne, kv.1 ≠ [] ∧ textWeight kv.1 < textWeight kv.2 := by
  decide

/-- Skipping `k` bytes in the scan is scanning the text without its first `k` bytes. -/
theorem replaceScan_skip (old new : Str) (k : Nat) (s : Str) :
    replaceScan old new k s = replaceScan old new 0 (s.drop k) := by
  induction s generalizing k with
  | nil => cases k <;> simp [replaceScan]
  | cons c cs ih =>
    cases k with
    | zero => rfl
    | succ k => rw [replaceScan, ih k, List.drop_succ_cons]

/-- The scan at an occurrence of `old`. -/
theorem replaceScan_at_match (old new rest : Str) (ho : old ≠ []) :
    replaceScan old new 0 (old ++ rest) = new ++ replaceScan old new 0 rest := by
  obtain ⟨c, cs, rfl⟩ := List.exists_cons_of_ne_nil ho
  have hp : (c :: cs).isPrefixOf (c :: (cs ++ rest)) = true :=
    List.isPrefixOf_iff_prefix.mpr ⟨rest, rfl⟩
  rw [List.cons_append, replaceScan, hp, if_pos rfl, replaceScan_skip]
  simp

/-- The scan where no occurrence of `old` starts. -/
theorem replaceScan_at_other (old new : Str) (c : Char) (cs : Str)
    (h : ¬ old <+: c :: cs) :
    replaceScan old new 0 (c :: cs) = c :: replaceScan old new 0 cs := by
  have hp : old.isPrefixOf (c :: cs) = false := by
    rw [Bool.eq_false_iff]
    exact fun hp => h (List.isPrefixOf_iff_prefix.mp hp)
  rw [replaceScan, hp]
  simp

/-- When `new` is heavier than `old`, the scan never makes a text lighter, and
makes it heavier as soon as `old` occurs in it. -/
theorem replaceScan_weight (old new : Str) (ho : old ≠ [])
    (hw : textWeight old < textWeight new) (n : Nat) :
    ∀ s : Str, s.length ≤ n →
      textWeight s ≤ textWeight (replaceScan old new 0 s)
        ∧ (old <:+: s → textWeight s < textWeight (replaceScan old new 0 s)) := by
  induction n with
  | zero =>
    intro s hs
    have : s = [] := List.length_eq_zero.mp (Nat.le_zero.mp hs)
    subst this
    refine ⟨le_refl _, fun hi => ?_⟩
    exact absurd (List.infix_nil.mp hi) ho
  | succ n ih =>
    intro s hs
    cases s with
    | nil =>
      refine ⟨le_refl _, fun hi => ?_⟩
      exact absurd (List.infix_nil.mp hi) ho
    | cons c cs =>
      by_cases hp : old <+: c :: cs
      · obtain ⟨rest, hrest⟩ := hp
        have hlen : rest.length ≤ n := by
          have h1 : (old ++ rest).length = (c :: cs).length := by rw [hrest]
          have h2 : 0 < old.length := List.length_pos.mpr ho
          simp only [List.length_append, List.length_cons] at h1 hs
          omega
        have h := (ih rest hlen).1
        rw [← hrest, replaceScan_at_match old new rest ho, textWeight_append, textWeight_append]
        constructor
        · omega
        · intro _
          omega
      · have hlen : cs.length ≤ n := by
          simp only [List.length_cons] at hs
          omega
        rw [replaceScan_at_other old new c cs hp, textWeight_cons, textWeight_cons]
        refine ⟨by have := (ih cs hlen).1; omega, fun hi => ?_⟩
        have hcs : old <:+: cs := by
          rcases List.infix_cons_iff.mp hi with h | h
          · exact absurd h hp
          · exact h
        have := (ih cs hlen).2 hcs
        omega

/-- A rule whose replacement is heavier than its pattern changes every text in
which the pattern occurs, into a heavier one. -/
theorem Replace_weight (s old new : Str) (ho : old ≠ [])
    (hw : textWeight old < textWeight new) :
    textWeight s ≤ textWeight (Replace s old new)
      ∧ (old <:+: s → textWeight s < textWeight (Replace s old new)) := by
  unfold Replace
  rw [if_neg ho]
  exact replaceScan_weight old new ho hw s.length s (le_refl _)

/-- Rules whose replacements are heavier than their patterns never make a text lighter. -/
theorem applyRules_weight (rules : List (Str × Str))
    (h : ∀ kv ∈ rules, kv.1 ≠ [] ∧ textWeight kv.1 < textWeight kv.2) (s : Str) :
    textWeight s ≤ textWeight (applyRules rules s) := by
  induction rules generalizing s with
  | nil => exact le_refl _
  | cons r rest ih =>
    rw [applyRules_cons]
    have hr := h r (List.mem_cons_self _ _)
    exact le_trans (Replace_weight s r.1 r.2 hr.1 hr.2).1
      (ih (fun kv hkv => h kv (List.mem_cons_of_mem _ hkv)) _)

/-- Rules whose replacements are heavier than their patterns leave a text
unchanged exactly when none of their patterns occurs in it. -/
theorem applyRules_eq_self_iff (rules : List (Str × Str))
    (h : ∀ kv ∈ rules, kv.1 ≠ [] ∧ textWeight kv.1 < textWeight kv.2) (s : Str) :
    applyRules rules s = s ↔ ∀ kv ∈ rules, ¬ kv.1 <:+: s := by
  constructor
  · intro he
    induction rules with
    | nil => intro kv hkv; simp at hkv
    | cons r rest ih =>
      have hr := h r (List.mem_cons_self _ _)
      have hrest : ∀ kv ∈ rest, kv.1 ≠ [] ∧ textWeight kv.1 < textWeight kv.2 :=
        fun kv hkv => h kv (List.mem_cons_of_mem _ hkv)
      have hnr : ¬ r.1 <:+: s := by
        intro hi
        have h1 := (Replace_weight s r.1 r.2 hr.1 hr.2).2 hi
        have h2 := applyRules_weight rest hrest (Replace s r.1 r.2)
        rw [applyRules_cons] at he
        rw [he] at h2
        omega
      rw [applyRules_cons, Replace_of_not_infix s r.1 r.2 hnr] at he
      intro kv hkv
      rcases List.mem_cons.mp hkv with e | e
      · rw [e]; exact hnr
      · exact ih hrest he kv e
  · intro hn
    exact applyRules_fixed rules s (fun kv hkv => Replace_of_not_infix _ _ _ (hn kv hkv))

/-- The facts about the line made of the pattern of a rule other than `#if`,
`#else` and `#endif`: it has no trailing `;`, its own rule turns it into the
replacement, no other rule changes it, and no rule changes the replacement. -/
theorem pattern_line_facts :
    ∀ r ∈ OneToOne, ¬ (r.1 = "#if".toList ∨ r.1 = "#else".toList ∨ r.1 = "#endif".toList) →
      BasicClean [] r.1 = r.1 ∧ Replace r.1 r.1 r.2 = r.2
        ∧ (∀ kv ∈ OneToOne, kv ≠ r → Replace r.1 kv.1 kv.2 = r.1)
        ∧ (∀ kv ∈ OneToOne, Replace r.2 kv.1 kv.2 = r.2) := by
  decide

/-- Under every order of the rules, the line made of the pattern of a rule
other than `#if`, `#else` and `#endif` is cleaned to the replacement of that
rule, and no rule changes the replacement. -/
theorem pattern_line_cleaned (rules : List (Str × Str)) (hperm : rules.Perm OneToOne)
    (r : Str × Str) (hr : r ∈ OneToOne)
    (hd : ¬ (r.1 = "#if".toList ∨ r.1 = "#else".toList ∨ r.1 = "#endif".toList)) :
    BasicClean rules r.1 = r.2 := by
  obtain ⟨h0, h1, h2, h3⟩ := pattern_line_facts r hr hd
  have hnd : rules.Nodup := hperm.nodup_iff.mpr (by decide)
  have : BasicClean rules r.1 = applyRules rules (BasicClean [] r.1) := rfl
  rw [this, h0]
  exact applyRules_once rules r r.1 r.2 hnd (hperm.mem_iff.mpr hr) h1
    (fun kv hkv hne => h2 kv (hperm.mem_iff.mp hkv) hne)
    (fun kv hkv _ => h3 kv (hperm.mem_iff.mp hkv))

/-- Under every order of the rules `coconstnst` is cleaned to `const`. -/
theorem nested_const_cleaned (rules : List (Str × Str)) (hperm : rules.Perm OneToOne) :
    BasicClean rules "coconstnst".toList = "const".toList := by
  have hnd : rules.Nodup := hperm.nodup_iff.mpr (by decide)
  have hr : ("const".toList, "".toList) ∈ rules := hperm.mem_iff.mpr (by decide)
  have h1 : ∀ kv ∈ OneToOne, kv ≠ ("const".toList, "".toList) →
      Replace "coconstnst".toList kv.1 kv.2 = "coconstnst".toList := by decide
  have h2 : ∀ kv ∈ OneToOne, kv ≠ ("const".toList, "".toList) →
      Replace "const".toList kv.1 kv.2 = "const".toList := by decide
  have : BasicClean rules "coconstnst".toList = applyRules rules "coconstnst".toList := rfl
  rw [this]
  exact applyRules_once rules _ _ _ hnd hr (by decide)
    (fun kv hkv => h1 kv (hperm.mem_iff.mp hkv)) (fun kv hkv => h2 kv (hperm.mem_iff.mp hkv))

/-- The rules in any order: each has a non-empty pattern and a heavier replacement. -/
theorem perm_weight (rules : List (Str × Str)) (hperm : rules.Perm OneToOne) :
    ∀ kv ∈ rules, kv.1 ≠ [] ∧ textWeight kv.1 < textWeight kv.2 :=
  fun kv hkv => OneToOne_weight kv (hperm.mem_iff.mp hkv)

/-- Under every order of the rules, a pass leaves a text unchanged exactly when
no pattern of `OneToOne` occurs in it. -/
theorem pass_eq_self_iff (rules : List (Str × Str)) (hperm : rules.Perm OneToOne) (t : Str) :
    applyRules rules t = t ↔ ∀ kv ∈ OneToOne, ¬ kv.1 <:+: t := by
  rw [applyRules_eq_self_iff rules (perm_weight rules hperm) t]
  exact ⟨fun h kv hkv => h kv (hperm.mem_iff.mpr hkv), fun h kv hkv => h kv (hperm.mem_iff.mp hkv)⟩

/-- C8 (amended): let the first pass visit the rules in the order `first` and
the second pass in the order `second`.  For every line `s` the second pass
returns `BasicClean s` unchanged if and only if no `OneToOne` pattern occurs in
`BasicClean s`.  That is so when no pattern occurs in `s` without its trailing
`;` (then `BasicClean` only removes the `;`), and when `s` is the pattern of a
rule other than `#if`, `#else` and `#endif` (then `BasicClean s` is the
replacement of that rule); it is not so for `coconstnst`, cleaned to `const`.
A replacement text of the table contains a pattern of the table only for the
rules `#if`, `#else` and `#endif`, each of whose replacement contains its own
pattern. -/
theorem C8_second_pass (first second : List (Str × Str))
    (hfirst : first.Perm OneToOne) (hsecond : second.Perm OneToOne) (s : Str) :
    (applyRules second (BasicClean first s) = BasicClean first s
        ↔ ∀ kv ∈ OneToOne, ¬ kv.1 <:+: BasicClean first s)
      ∧ ((∀ kv ∈ OneToOne, ¬ kv.1 <:+: BasicClean [] s) →
          BasicClean first s = BasicClean [] s
            ∧ applyRules second (BasicClean first s) = BasicClean first s)
      ∧ (∀ r ∈ OneToOne,
          ¬ (r.1 = "#if".toList ∨ r.1 = "#else".toList ∨ r.1 = "#endif".toList) →
            BasicClean first r.1 = r.2
              ∧ applyRules second (BasicClean first r.1) = BasicClean first r.1)
      ∧ (BasicClean first "coconstnst".toList = "const".toList
          ∧ applyRules second (BasicClean first "coconstnst".toList)
              ≠ BasicClean first "coconstnst".toList)
      ∧ (∀ r ∈ OneToOne, ∀ q ∈ OneToOne, q.1 <:+: r.2 →
          q = r ∧ (r.1 = "#if".toList ∨ r.1 = "#else".toList ∨ r.1 = "#endif".toList))
      ∧ (∀ r ∈ OneToOne,
          r.1 = "#if".toList ∨ r.1 = "#else".toList ∨ r.1 = "#endif".toList → r.1 <:+: r.2) := by
  refine ⟨pass_eq_self_iff second hsecond _, ?_, ?_, ?_, by decide, by decide⟩
  · intro h
    have h1 : BasicClean first s = BasicClean [] s :=
      (pass_eq_self_iff first hfirst (BasicClean [] s)).mpr h
    refine ⟨h1, ?_⟩
    rw [h1]
    exact (pass_eq_self_iff second hsecond (BasicClean [] s)).mpr h
  · intro r hr hd
    have h1 := pattern_line_cleaned first hfirst r hr hd
    refine ⟨h1, ?_⟩
    rw [h1]
    exact applyRules_fixed second r.2
      (fun kv hkv => (pattern_line_facts r hr hd).2.2.2 kv (hsecond.mem_iff.mp hkv))
  · have h1 := nested_const_cleaned first hfirst
    refine ⟨h1, ?_⟩
    rw [h1]
    intro he
    exact (pass_eq_self_iff second hsecond "const".toList).mp he
      ("const".toList, "".toList) (by decide) (List.infix_refl _)

/-- Witness of C8 at the source order of the rules for both passes and the
line `NULL;`, cleaned to `nil`. -/
theorem C8_second_pass_witness :
    (applyRules OneToOne (BasicClean OneToOne "NULL;".toList) = BasicClean OneToOne "NULL;".toList
        ↔ ∀ kv ∈ OneToOne, ¬ kv.1 <:+: BasicClean OneToOne "NULL;".toList)
      ∧ ((∀ kv ∈ OneToOne, ¬ kv.1 <:+: BasicClean [] "NULL;".toList) →
          BasicClean OneToOne "NULL;".toList = BasicClean [] "NULL;".toList
            ∧ applyRules OneToOne (BasicClean OneToOne "NULL;".toList)
                = BasicClean OneToOne "NULL;".toList)
      ∧ (∀ r ∈ OneToOne,
          ¬ (r.1 = "#if".toList ∨ r.1 = "#else".toList ∨ r.1 = "#endif".toList) →
            BasicClean OneToOne r.1 = r.2
              ∧ applyRules OneToOne (BasicClean OneToOne r.1) = BasicClean OneToOne r.1)
      ∧ (BasicClean OneToOne "coconstnst".toList = "const".toList
          ∧ applyRules OneToOne (BasicClean OneToOne "coconstnst".toList)
              ≠ BasicClean OneToOne "coconstnst".toList)
      ∧ (∀ r ∈ OneToOne, ∀ q ∈ OneToOne, q.1 <:+: r.2 →
          q = r ∧ (r.1 = "#if".toList ∨ r.1 = "#else".toList ∨ r.1 = "#endif".toList))
      ∧ (∀ r ∈ OneToOne,
          r.1 = "#if".toList ∨ r.1 = "#else".toList ∨ r.1 = "#endif".toList → r.1 <:+: r.2) :=
  C8_second_pass OneToOne OneToOne (List.Perm.refl _) (List.Perm.refl _) "NULL;".toList

/-- C8 as stated fails: whatever the orders of the rules in the two passes, the
second pass does not leave the cleaned form of `#if` unchanged. -/
theorem C8_idempotence_refuted :
    ¬ ∃ first second : List (Str × Str), first.Perm OneToOne ∧ second.Perm OneToOne ∧
      applyRules second (BasicClean first "#if".toList) = BasicClean first "#if".toList := by
  rintro ⟨first, second, hfirst, hsecond, h⟩
  rw [(directive_twice first hfirst).1, (directive_twice second hsecond).2] at h
  exact absurd h (by decide)

/-! ## C9 and C10: closing a function header -/

/-- The failing inputs of C9: under every order of the rules the lines
`static int` and `table[] = {` make the driver abort with an index out of
range, because the header has no `(`; so does `FixFuncParams` on a header with
`(` and no `)`. -/
theorem C9_index_panic (rules : List (Str × Str)) (hperm : rules.Perm OneToOne) :
    run rules ["static int".toList, "table[] = \x7b".toList] = .error .indexOutOfRange
      ∧ FixFuncParams "func table[] =  int \x7b".toList = .error .indexOutOfRange
      ∧ FixFuncParams "func f(  int \x7b".toList = .error .indexOutOfRange := by
  refine ⟨?_, by decide, by decide⟩
  rw [run_eq_runCleaned]
  simp only [List.map_cons, List.map_nil]
  rw [BasicClean_fixed rules hperm "static int".toList "static int".toList (by decide)
      (by decide),
    BasicClean_fixed rules hperm "table[] = \x7b".toList "table[] = \x7b".toList (by decide)
      (by decide)]
  decide

/-- Witness of C9 at the source order of the rules. -/
theorem C9_index_panic_witness :
    run OneToOne ["static int".toList, "table[] = \x7b".toList] = .error .indexOutOfRange
      ∧ FixFuncParams "func table[] =  int \x7b".toList = .error .indexOutOfRange
      ∧ FixFuncParams "func f(  int \x7b".toList = .error .indexOutOfRange :=
  C9_index_panic OneToOne (List.Perm.refl _)

/-- The failing input of C10: under every order of the rules the lines `void`
and `name() {` emit `func name()   {`, the header text `name() ` followed by the
separator of an empty return type, whereas `FixFuncParams` of `func `, the
header text and ` {` is `func name()  {`. -/
theorem C10_void_separator (rules : List (Str × Str)) (hperm : rules.Perm OneToOne) :
    (run rules ["void".toList, "name() \x7b".toList]).map Driver.out
        = .ok ["package gdl".toList, "func name()   \x7b".toList]
      ∧ FixFuncParams ("func ".toList ++ "name() ".toList ++ " \x7b".toList)
        = .ok "func name()  \x7b".toList
      ∧ mapIndex FTypes "void".toList ≠ "void".toList := by
  refine ⟨?_, by decide, by decide⟩
  rw [header_out rules hperm "void".toList (by decide)]
  decide

/-- Witness of C10 at the source order of the rules. -/
theorem C10_void_separator_witness :
    (run OneToOne ["void".toList, "name() \x7b".toList]).map Driver.out
        = .ok ["package gdl".toList, "func name()   \x7b".toList]
      ∧ FixFuncParams ("func ".toList ++ "name() ".toList ++ " \x7b".toList)
        = .ok "func name()  \x7b".toList
      ∧ mapIndex FTypes "void".toList ≠ "void".toList :=
  C10_void_separator OneToOne (List.Perm.refl _)

/-! ## C11: a pending header is flushed only by a scope-open line -/

/-- While a header is pending, a line that does not open a scope only extends
the header text. -/
theorem stepCleaned_pending (d : Driver) (cur : Func) (s : Str)
    (hst : d.state = State.FnType) (hcur : d.cur = some cur)
    (hs : MatchScopeOpen s = false) :
    stepCleaned d s = .ok ⟨State.FnType, some ⟨cur.Type_, cur.Header ++ s⟩, d.out, d.diag⟩ := by
  simp [stepCleaned, hst, hcur, hs, pure_eq_ok]

/-- Lines that do not open a scope leave the output of a pending header alone. -/
theorem foldlM_pending (rules : List (Str × Str)) (L2 : List Str)
    (h2 : ∀ l ∈ L2, MatchScopeOpen (BasicClean rules l) = false)
    (d : Driver) (cur : Func) (hst : d.state = State.FnType) (hcur : d.cur = some cur) :
    ∃ d', L2.foldlM (step rules) d = .ok d' ∧ d'.out = d.out ∧ d'.diag = d.diag
      ∧ d'.state = State.FnType := by
  induction L2 generalizing d cur with
  | nil => exact ⟨d, rfl, rfl, rfl, hst⟩
  | cons l ls ih =>
    have hl := h2 l (List.mem_cons_self _ _)
    have hstep : step rules d l
        = .ok ⟨State.FnType, some ⟨cur.Type_, cur.Header ++ BasicClean rules l⟩, d.out, d.diag⟩ :=
      stepCleaned_pending d cur _ hst hcur hl
    obtain ⟨d', hd', ho, hg, hs'⟩ := ih (fun l' hl' => h2 l' (List.mem_cons_of_mem _ hl'))
      ⟨State.FnType, some ⟨cur.Type_, cur.Header ++ BasicClean rules l⟩, d.out, d.diag⟩
      ⟨cur.Type_, cur.Header ++ BasicClean rules l⟩ rfl rfl
    refine ⟨d', ?_, ho, hg, hs'⟩
    rw [List.foldlM_cons, hstep]
    exact hd'

/-- C11: if the driver is Idle after the lines `L1`, the cleaned form of the
line `k` is a key of `FTypes`, and no cleaned line of `L2` satisfies
`MatchScopeOpen`, then the loop completes on `L1`, `k`, `L2` with the output
sequence of `L1` alone: the pending header is never flushed by the end of the
input. -/
theorem C11_pending_not_flushed (rules : List (Str × Str)) (L1 L2 : List Str) (k : Str)
    (d : Driver) (h1 : run rules L1 = .ok d) (hidle : d.state = State.None)
    (hk : MatchFnType (BasicClean rules k) = true)
    (h2 : ∀ l ∈ L2, MatchScopeOpen (BasicClean rules l) = false) :
    (run rules (L1 ++ k :: L2)).map Driver.out = (run rules L1).map Driver.out
      ∧ ∃ d', run rules (L1 ++ k :: L2) = .ok d' ∧ d'.out = d.out
          ∧ d'.state = State.FnType := by
  have hstep : step rules d k
      = .ok ⟨State.FnType, some ⟨mapIndex FTypes (BasicClean rules k), []⟩, d.out, d.diag⟩ := by
    simp [step, stepCleaned, hidle, hk, pure_eq_ok]
  obtain ⟨d', hd', ho, _, hs'⟩ := foldlM_pending rules L2 h2
    ⟨State.FnType, some ⟨mapIndex FTypes (BasicClean rules k), []⟩, d.out, d.diag⟩
    ⟨mapIndex FTypes (BasicClean rules k), []⟩ rfl rfl
  have hrun : run rules (L1 ++ k :: L2) = .ok d' := by
    unfold run at h1 ⊢
    rw [List.foldlM_append, h1, ok_bind, List.foldlM_cons, hstep]
    exact hd'
  refine ⟨?_, d', hrun, ho, hs'⟩
  rw [hrun, h1]
  show Except.ok d'.out = Except.ok d.out
  rw [ho]

/-- Witness of C11: after `}` the lines `int`, `foo(int a,` add nothing. -/
theorem C11_pending_not_flushed_witness :
    (run OneToOne (["\x7d".toList] ++ "int".toList :: ["foo(int a,".toList])).map Driver.out
        = (run OneToOne ["\x7d".toList]).map Driver.out
      ∧ ∃ d', run OneToOne (["\x7d".toList] ++ "int".toList :: ["foo(int a,".toList]) = .ok d'
          ∧ d'.out = ["package gdl".toList, "\x7d".toList] ∧ d'.state = State.FnType :=
  C11_pending_not_flushed OneToOne ["\x7d".toList] ["foo(int a,".toList] "int".toList
    ⟨State.None, none, ["package gdl".toList, "\x7d".toList], []⟩
    (by decide) rfl (by decide) (by decide)

/-! ## C12 and C13: the classifiers `MatchVarDecl` and `MatchBadIf` -/

/-- The first piece of a split is the text before the first separator. -/
theorem Split_headD (t : Str) (c : Char) :
    (Split t c).headD [] = t.takeWhile (fun x => x != c) := by
  induction t with
  | nil => rfl
  | cons x xs ih =>
    unfold Split
    by_cases hx : x = c
    · simp [hx, List.takeWhile]
    · rw [if_neg hx]
      have hne : (x != c) = true := by simpa using hx
      rw [List.takeWhile_cons, hne]
      simp only [if_true]
      rw [← ih]
      cases hsp : Split xs c with
      | nil => exact absurd hsp (Split_ne_nil xs c)
      | cons p ps => rfl

/-- C12 (amended): `MatchVarDecl s` is true if and only if, after removing
leading tabs, the text of `s` before its first space (all of it when it has no
space) is exactly a key of `FTypes`. -/
theorem C12_matchvardecl_iff (s : Str) :
    MatchVarDecl s = true
      ↔ (TrimLeft s ['\t']).takeWhile (fun x => x != ' ') ∈ FTypes.map Prod.fst := by
  unfold MatchVarDecl
  simp only [Split_headD, List.any_eq_true, beq_iff_eq, List.mem_map]

/-- C12 as stated fails: in `int`, tab, `x` the first space- or tab-delimited
token is the key `int`, but `MatchVarDecl` is false, because it splits on
spaces only. -/
theorem C12_tab_delimited_refuted :
    (TrimLeft "int\tx".toList ['\t']).takeWhile (fun x => x != ' ' && x != '\t')
        ∈ FTypes.map Prod.fst
      ∧ MatchVarDecl "int\tx".toList = false := by
  decide

/-- C13 (amended): `MatchBadIf s` is true if and only if `s`, with surrounding
spaces and tabs removed, is longer than two bytes, starts with `if` and does
not end with `{`. -/
theorem C13_matchbadif_iff (s : Str) :
    MatchBadIf s = true
      ↔ 2 < (Trim s [' ', '\t']).length ∧ "if".toList <+: Trim s [' ', '\t']
          ∧ (Trim s [' ', '\t']).getLast? ≠ some '\x7b' := by
  unfold MatchBadIf
  simp only [Bool.and_eq_true, decide_eq_true_eq, beq_iff_eq, bne_iff_ne, gt_iff_lt, and_assoc]
  constructor
  · rintro ⟨h1, h2, h3⟩
    refine ⟨h1, ?_, h3⟩
    rw [List.prefix_iff_eq_take]
    exact h2.symm
  · rintro ⟨h1, h2, h3⟩
    refine ⟨h1, ?_, h3⟩
    rw [List.prefix_iff_eq_take] at h2
    exact h2.symm

/-- C13 as stated fails: the line `if` starts with `if` and does not end with
`{`, but `MatchBadIf` is false, because the trimmed line is not longer than two
bytes. -/
theorem C13_bare_if_refuted :
    ("if".toList <+: Trim "if".toList [' ', '\t']
        ∧ (Trim "if".toList [' ', '\t']).getLast? ≠ some '\x7b')
      ∧ MatchBadIf "if".toList = false := by
  decide

/-! ## The part of the loop body after the `switch` -/

/-- A line that is longer than eight bytes and begins with `#include` is
dropped. -/
theorem common_include (d : Driver) (s : Str)
    (hinc : (decide (s.length > 8) && s.take 8 == "#include".toList) = true) :
    common d s = .ok d := by
  simp only [common, hinc, if_true]
  rfl

/-- A line that `MatchVarDecl` accepts is emitted as `FixVarDecl` returns it. -/
theorem common_decl (d : Driver) (s r : Str)
    (hinc : (decide (s.length > 8) && s.take 8 == "#include".toList) = false)
    (hv : MatchVarDecl s = true) (hr : FixVarDecl s = .ok r) :
    common d s = .ok ⟨d.state, d.cur, d.out ++ [r],
      if MatchBadIf r then d.diag ++ [d.out.length + 1] else d.diag⟩ := by
  simp only [common, hinc, hv, hr, if_true, Bool.false_eq_true, if_false]
  rfl

/-- A line that `MatchVarDecl` accepts and on which `FixVarDecl` aborts. -/
theorem common_decl_error (d : Driver) (s : Str) (e : Err)
    (hinc : (decide (s.length > 8) && s.take 8 == "#include".toList) = false)
    (hv : MatchVarDecl s = true) (hr : FixVarDecl s = .error e) :
    common d s = .error e := by
  simp only [common, hinc, hv, hr, if_true, Bool.false_eq_true, if_false]
  rfl

/-- Any other line is emitted as it is. -/
theorem common_plain (d : Driver) (s : Str)
    (hinc : (decide (s.length > 8) && s.take 8 == "#include".toList) = false)
    (hv : MatchVarDecl s = false) :
    common d s = .ok ⟨d.state, d.cur, d.out ++ [s],
      if MatchBadIf s then d.diag ++ [d.out.length + 1] else d.diag⟩ := by
  simp only [common, hinc, hv, Bool.false_eq_true, if_false]
  rfl

/-- An Idle driver on a line that is not a key of `FTypes` runs the common part. -/
theorem stepCleaned_idle (d : Driver) (s : Str) (hd : d.state = State.None)
    (hk : MatchFnType s = false) : stepCleaned d s = common d s := by
  simp [stepCleaned, hd, hk]

/-! ## C20: the key `const char` -/

/-- C20: under every order of the rules `const char` is cleaned to ` char`,
which is not a key of `FTypes`, and an Idle driver stays Idle on that line. -/
theorem C20_const_char_no_header (rules : List (Str × Str)) (hperm : rules.Perm OneToOne) :
    BasicClean rules "const char".toList = " char".toList
      ∧ MatchFnType (BasicClean rules "const char".toList) = false
      ∧ ∀ d : Driver, d.state = State.None →
          step rules d "const char".toList
            = .ok ⟨State.None, d.cur, d.out ++ [" char".toList], d.diag⟩ := by
  have hc : BasicClean rules "const char".toList = " char".toList := by
    rw [BasicClean_key rules hperm "const char".toList (by decide)]
    rfl
  refine ⟨hc, ?_, ?_⟩
  · rw [hc]
    decide
  · intro d hd
    have h3 : MatchBadIf " char".toList = false := by decide
    unfold step
    rw [hc, stepCleaned_idle d _ hd (by decide), common_plain d _ (by decide) (by decide), h3]
    simp [hd]

/-- Witness of C20 at the source order of the rules. -/
theorem C20_const_char_no_header_witness :
    BasicClean OneToOne "const char".toList = " char".toList
      ∧ MatchFnType (BasicClean OneToOne "const char".toList) = false
      ∧ ∀ d : Driver, d.state = State.None →
          step OneToOne d "const char".toList
            = .ok ⟨State.None, d.cur, d.out ++ [" char".toList], d.diag⟩ :=
  C20_const_char_no_header OneToOne (List.Perm.refl _)

/-! ## C14: the diagnostics -/

/-- What the common part does to the output and the diagnostics. -/
theorem common_effect (d d' : Driver) (s : Str) (h : common d s = .ok d') :
    (d'.out = d.out ∧ d'.diag = d.diag)
      ∨ ∃ x, d'.out = d.out ++ [x]
          ∧ d'.diag = d.diag ++ (if MatchBadIf x then [d.out.length + 1] else []) := by
  by_cases hinc : (decide (s.length > 8) && s.take 8 == "#include".toList) = true
  · rw [common_include d s hinc] at h
    cases h
    exact Or.inl ⟨rfl, rfl⟩
  · have hinc' := Bool.eq_false_iff.mpr hinc
    by_cases hv : MatchVarDecl s = true
    · cases hr : FixVarDecl s with
      | error e =>
        rw [common_decl_error d s e hinc' hv hr] at h
        cases h
      | ok r =>
        rw [common_decl d s r hinc' hv hr] at h
        cases h
        refine Or.inr ⟨r, rfl, ?_⟩
        by_cases hb : MatchBadIf r = true <;> simp [hb]
    · have hv' := Bool.eq_false_iff.mpr hv
      rw [common_plain d s hinc' hv'] at h
      cases h
      refine Or.inr ⟨s, rfl, ?_⟩
      by_cases hb : MatchBadIf s = true <;> simp [hb]

/-- What one iteration does to the output and the diagnostics: while a header
is pending no diagnostic is issued; otherwise either nothing is emitted, or one
line is emitted, with a diagnostic naming its position exactly when it
satisfies `MatchBadIf`. -/
theorem stepCleaned_effect (d d' : Driver) (s : Str) (h : stepCleaned d s = .ok d') :
    (d.state = State.FnType →
        d'.diag = d.diag ∧ (d'.out = d.out ∨ ∃ x, d'.out = d.out ++ [x]))
      ∧ (d.state ≠ State.FnType →
        (d'.out = d.out ∧ d'.diag = d.diag)
          ∨ ∃ x, d'.out = d.out ++ [x]
              ∧ d'.diag = d.diag ++ (if MatchBadIf x then [d.out.length + 1] else [])) := by
  cases hst : d.state with
  | None =>
    refine ⟨fun e => (by cases e), fun _ => ?_⟩
    by_cases hk : MatchFnType s = true
    · simp only [stepCleaned, hst, hk, if_true] at h
      cases h
      exact Or.inl ⟨rfl, rfl⟩
    · rw [stepCleaned_idle d s hst (Bool.eq_false_iff.mpr hk)] at h
      exact common_effect d d' s h
  | FnType =>
    refine ⟨fun _ => ?_, fun e => absurd rfl e⟩
    cases hc : d.cur with
    | none =>
      simp only [stepCleaned, hst, hc] at h
      cases h
    | some cur =>
      by_cases ho : MatchScopeOpen s = true
      · simp only [stepCleaned, hst, hc, ho, if_true] at h
        generalize FixFuncParams _ = r at h
        cases r with
        | error e => cases h
        | ok r =>
          cases h
          exact ⟨rfl, Or.inr ⟨r, rfl⟩⟩
      · simp only [stepCleaned, hst, hc, ho, Bool.false_eq_true, if_false] at h
        cases h
        exact ⟨rfl, Or.inl rfl⟩
  | FnDecl =>
    refine ⟨fun e => (by cases e), fun _ => ?_⟩
    simp only [stepCleaned, hst] at h
    exact common_effect d d' s h
  | FnOpen =>
    refine ⟨fun e => (by cases e), fun _ => ?_⟩
    simp only [stepCleaned, hst] at h
    exact common_effect d d' s h
  | Comment =>
    refine ⟨fun e => (by cases e), fun _ => ?_⟩
    simp only [stepCleaned, hst] at h
    exact common_effect d d' s h
  | VarDecl =>
    refine ⟨fun e => (by cases e), fun _ => ?_⟩
    simp only [stepCleaned, hst] at h
    exact common_effect d d' s h

theorem lt_length_of_getElem?_eq_some {l : List Str} {i : Nat} {x : Str}
    (h : l[i]? = some x) : i < l.length := by
  by_contra hlt
  rw [List.getElem?_eq_none (Nat.le_of_not_lt hlt)] at h
  cases h

theorem getElem?_append_of_some {l : List Str} {i : Nat} {x : Str} (ys : List Str)
    (h : l[i]? = some x) : (l ++ ys)[i]? = some x := by
  rw [List.getElem?_append_left (lt_length_of_getElem?_eq_some h)]
  exact h

/-- One iteration keeps: every diagnostic names a position of the output that
holds a line satisfying `MatchBadIf`, and the diagnostics increase. -/
theorem diag_invariant_step (d d' : Driver) (s : Str) (h : stepCleaned d s = .ok d')
    (hinv : (∀ N ∈ d.diag, 1 ≤ N ∧ ∃ x, d.out[N - 1]? = some x ∧ MatchBadIf x = true)
      ∧ d.diag.Pairwise (fun a b => a < b)) :
    (∀ N ∈ d'.diag, 1 ≤ N ∧ ∃ x, d'.out[N - 1]? = some x ∧ MatchBadIf x = true)
      ∧ d'.diag.Pairwise (fun a b => a < b) := by
  obtain ⟨hpos, hpw⟩ := hinv
  have keep : ∀ ys : List Str, d'.out = d.out ++ ys → d'.diag = d.diag →
      (∀ N ∈ d'.diag, 1 ≤ N ∧ ∃ x, d'.out[N - 1]? = some x ∧ MatchBadIf x = true)
        ∧ d'.diag.Pairwise (fun a b => a < b) := by
    intro ys ho hg
    rw [ho, hg]
    refine ⟨fun N hN => ?_, hpw⟩
    obtain ⟨h1, x, hx, hb⟩ := hpos N hN
    exact ⟨h1, x, getElem?_append_of_some ys hx, hb⟩
  have eff := stepCleaned_effect d d' s h
  by_cases hst : d.state = State.FnType
  · obtain ⟨hg, ho⟩ := eff.1 hst
    rcases ho with ho | ⟨x, ho⟩
    · exact keep [] (by simpa using ho) hg
    · exact keep [x] ho hg
  · rcases eff.2 hst with ⟨ho, hg⟩ | ⟨x, ho, hg⟩
    · exact keep [] (by simpa using ho) hg
    · by_cases hb : MatchBadIf x = true
      · simp only [hb, if_true] at hg
        rw [ho, hg]
        constructor
        · intro N hN
          rcases List.mem_append.mp hN with hN | hN
          · obtain ⟨h1, y, hy, hby⟩ := hpos N hN
            exact ⟨h1, y, getElem?_append_of_some [x] hy, hby⟩
          · rw [List.mem_singleton.mp hN]
            refine ⟨Nat.succ_le_succ (Nat.zero_le _), x, ?_, hb⟩
            simp
        · rw [List.pairwise_append]
          refine ⟨hpw, List.pairwise_singleton _ _, ?_⟩
          intro a ha b hb'
          rw [List.mem_singleton.mp hb']
          obtain ⟨h1, y, hy, _⟩ := hpos a ha
          have := lt_length_of_getElem?_eq_some hy
          omega
      · simp only [hb, Bool.false_eq_true, if_false, List.append_nil] at hg
        exact keep [x] ho hg

/-- The invariant of `diag_invariant_step` along the loop. -/
theorem diag_invariant_foldlM (rules : List (Str × Str)) (lines : List Str) (e d : Driver)
    (h : lines.foldlM (step rules) e = .ok d)
    (hinv : (∀ N ∈ e.diag, 1 ≤ N ∧ ∃ x, e.out[N - 1]? = some x ∧ MatchBadIf x = true)
      ∧ e.diag.Pairwise (fun a b => a < b)) :
    (∀ N ∈ d.diag, 1 ≤ N ∧ ∃ x, d.out[N - 1]? = some x ∧ MatchBadIf x = true)
      ∧ d.diag.Pairwise (fun a b => a < b) := by
  induction lines generalizing e with
  | nil =>
    cases h
    exact hinv
  | cons l ls ih =>
    rw [List.foldlM_cons] at h
    cases hs : step rules e l with
    | error err =>
      rw [hs] at h
      cases h
    | ok e' =>
      rw [hs, ok_bind] at h
      exact ih e' h (diag_invariant_step e e' _ hs hinv)

/-- C14: when the loop of `main` completes, every diagnostic `N` names a
1-based position of the final output sequence that holds a line satisfying
`MatchBadIf`, and the diagnostics are strictly increasing; in every iteration
the output is only extended at its end, no diagnostic is issued while a header
is pending, and otherwise either nothing is emitted or one line is appended to
the output, with exactly one diagnostic, naming its position, when it satisfies
`MatchBadIf` and none when it does not. -/
theorem C14_diagnostics (rules : List (Str × Str)) (lines : List Str) (d : Driver)
    (h : run rules lines = .ok d) :
    (∀ N ∈ d.diag, 1 ≤ N ∧ ∃ x, d.out[N - 1]? = some x ∧ MatchBadIf x = true)
      ∧ d.diag.Pairwise (fun a b => a < b)
      ∧ ∀ (e e' : Driver) (l : Str), step rules e l = .ok e' →
          e.out <+: e'.out
            ∧ (e.state = State.FnType → e'.diag = e.diag)
            ∧ (e.state ≠ State.FnType →
              (e'.out = e.out ∧ e'.diag = e.diag)
                ∨ ∃ x, e'.out = e.out ++ [x]
                    ∧ e'.diag = e.diag ++ (if MatchBadIf x then [e.out.length + 1] else [])) := by
  have hinv := diag_invariant_foldlM rules lines Driver.init d h
    ⟨fun N hN => (by cases hN), List.Pairwise.nil⟩
  refine ⟨hinv.1, hinv.2, ?_⟩
  intro e e' l hl
  have eff := stepCleaned_effect e e' _ hl
  refine ⟨?_, fun hst => (eff.1 hst).1, eff.2⟩
  by_cases hst : e.state = State.FnType
  · rcases (eff.1 hst).2 with ho | ⟨x, ho⟩
    · rw [ho]
    · rw [ho]
      exact List.prefix_append _ _
  · rcases eff.2 hst with ⟨ho, _⟩ | ⟨x, ho, _⟩
    · rw [ho]
    · rw [ho]
      exact List.prefix_append _ _

/-- Witness of C14: the lines `if (x)`, `y;`, `if (z)` give the diagnostics 2
and 4. -/
theorem C14_diagnostics_witness :
    (∀ N ∈ [2, 4], 1 ≤ N ∧ ∃ x,
        ["package gdl".toList, "if (x)".toList, "y".toList, "if (z)".toList][N - 1]? = some x
          ∧ MatchBadIf x = true)
      ∧ [2, 4].Pairwise (fun a b => a < b)
      ∧ ∀ (e e' : Driver) (l : Str), step OneToOne e l = .ok e' →
          e.out <+: e'.out
            ∧ (e.state = State.FnType → e'.diag = e.diag)
            ∧ (e.state ≠ State.FnType →
              (e'.out = e.out ∧ e'.diag = e.diag)
                ∨ ∃ x, e'.out = e.out ++ [x]
                    ∧ e'.diag = e.diag ++ (if MatchBadIf x then [e.out.length + 1] else [])) :=
  C14_diagnostics OneToOne ["if (x)".toList, "y;".toList, "if (z)".toList]
    ⟨State.None, none,
      ["package gdl".toList, "if (x)".toList, "y".toList, "if (z)".toList], [2, 4]⟩
    (by decide)

/-! ## C19: the driver on lines that start no header -/

/-- The guard `len(s) > 8 && s[:8] == "#include"` of the loop. -/
theorem include_guard_iff (s : Str) :
    (decide (s.length > 8) && s.take 8 == "#include".toList) = true
      ↔ 8 < s.length ∧ "#include".toList <+: s := by
  simp only [Bool.and_eq_true, decide_eq_true_eq, beq_iff_eq, gt_iff_lt]
  constructor
  · rintro ⟨h1, h2⟩
    refine ⟨h1, ?_⟩
    rw [List.prefix_iff_eq_take]
    exact h2.symm
  · rintro ⟨h1, h2⟩
    refine ⟨h1, ?_⟩
    rw [List.prefix_iff_eq_take] at h2
    exact h2.symm

/-- The loop from an Idle driver over lines that start no header. -/
theorem foldlM_idle (rules : List (Str × Str)) (lines : List Str)
    (hkeys : ∀ l ∈ lines, MatchFnType (BasicClean rules l) = false)
    (hfix : ∀ l ∈ lines, ¬ (8 < (BasicClean rules l).length
        ∧ "#include".toList <+: BasicClean rules l) →
      MatchVarDecl (BasicClean rules l) = true → ∃ r, FixVarDecl (BasicClean rules l) = .ok r)
    (d : Driver) (hd : d.state = State.None) :
    ∃ d', lines.foldlM (step rules) d = .ok d' ∧ d'.state = State.None
      ∧ d'.out = d.out ++ lines.filterMap (fun l =>
          if 8 < (BasicClean rules l).length ∧ "#include".toList <+: BasicClean rules l then none
          else if MatchVarDecl (BasicClean rules l) = true then
            (match FixVarDecl (BasicClean rules l) with
              | .ok r => some r
              | .error _ => none)
          else some (BasicClean rules l)) := by
  induction lines generalizing d with
  | nil => exact ⟨d, rfl, hd, by simp⟩
  | cons l ls ih =>
    have hk := hkeys l (List.mem_cons_self _ _)
    have hkeys' : ∀ l' ∈ ls, MatchFnType (BasicClean rules l') = false :=
      fun l' hl' => hkeys l' (List.mem_cons_of_mem _ hl')
    have hfix' : ∀ l' ∈ ls, ¬ (8 < (BasicClean rules l').length
        ∧ "#include".toList <+: BasicClean rules l') →
        MatchVarDecl (BasicClean rules l') = true →
        ∃ r, FixVarDecl (BasicClean rules l') = .ok r :=
      fun l' hl' => hfix l' (List.mem_cons_of_mem _ hl')
    have hstep : step rules d l = common d (BasicClean rules l) :=
      stepCleaned_idle d _ hd hk
    rw [List.foldlM_cons, hstep]
    by_cases hinc : 8 < (BasicClean rules l).length ∧ "#include".toList <+: BasicClean rules l
    · rw [common_include d _ ((include_guard_iff _).mpr hinc), ok_bind]
      obtain ⟨d', h1, h2, h3⟩ := ih hkeys' hfix' d hd
      refine ⟨d', h1, h2, ?_⟩
      rw [h3, List.filterMap_cons]
      simp only [hinc, and_self, if_true]
    · have hinc' : (decide ((BasicClean rules l).length > 8)
          && (BasicClean rules l).take 8 == "#include".toList) = false :=
        Bool.eq_false_iff.mpr (fun h => hinc ((include_guard_iff _).mp h))
      by_cases hv : MatchVarDecl (BasicClean rules l) = true
      · obtain ⟨r, hr⟩ := hfix l (List.mem_cons_self _ _) hinc hv
        rw [common_decl d _ r hinc' hv hr, ok_bind]
        obtain ⟨d', h1, h2, h3⟩ := ih hkeys' hfix' ⟨d.state, d.cur, d.out ++ [r], _⟩ hd
        refine ⟨d', h1, h2, ?_⟩
        rw [h3, List.filterMap_cons]
        simp only [hinc, if_false, hv, if_true, hr, List.append_assoc, List.singleton_append]
      · have hv' := Bool.eq_false_iff.mpr hv
        rw [common_plain d _ hinc' hv', ok_bind]
        obtain ⟨d', h1, h2, h3⟩ := ih hkeys' hfix' ⟨d.state, d.cur, d.out ++ [_], _⟩ hd
        refine ⟨d', h1, h2, ?_⟩
        rw [h3, List.filterMap_cons]
        simp only [hinc, if_false, hv', Bool.false_eq_true, List.append_assoc,
          List.singleton_append]

/-- C19 (amended): for input lines none of whose cleaned forms is a key of
`FTypes` and on which `FixVarDecl` does not abort, the output sequence is
`package gdl` followed, in input order, by one line per input line whose cleaned
form is not a text longer than eight bytes that begins with `#include`:
`FixVarDecl` of the cleaned line when `MatchVarDecl` accepts it, the cleaned line
itself otherwise; a cleaned line longer than eight bytes that begins with
`#include` contributes nothing. -/
theorem C19_idle_output (rules : List (Str × Str)) (lines : List Str)
    (hkeys : ∀ l ∈ lines, MatchFnType (BasicClean rules l) = false)
    (hfix : ∀ l ∈ lines, ¬ (8 < (BasicClean rules l).length
        ∧ "#include".toList <+: BasicClean rules l) →
      MatchVarDecl (BasicClean rules l) = true → ∃ r, FixVarDecl (BasicClean rules l) = .ok r) :
    (run rules lines).map Driver.out
      = .ok ("package gdl".toList :: lines.filterMap (fun l =>
          if 8 < (BasicClean rules l).length ∧ "#include".toList <+: BasicClean rules l then none
          else if MatchVarDecl (BasicClean rules l) = true then
            (match FixVarDecl (BasicClean rules l) with
              | .ok r => some r
              | .error _ => none)
          else some (BasicClean rules l))) := by
  obtain ⟨d', h1, _, h3⟩ := foldlM_idle rules lines hkeys hfix Driver.init rfl
  unfold run
  rw [h1]
  show Except.ok d'.out = _
  rw [h3]
  rfl

/-- Witness of C19: an include line, a declaration and a plain line. -/
theorem C19_idle_output_witness :
    (run OneToOne ["#include <stdio.h>".toList, "int x;".toList, "x = NULL;".toList]).map
        Driver.out
      = .ok ["package gdl".toList, "var x int".toList, "x = nil".toList] :=
  C19_idle_output OneToOne ["#include <stdio.h>".toList, "int x;".toList, "x = NULL;".toList]
    (by decide)
    (fun l hl hinc hv => by
      simp only [List.mem_cons, List.mem_singleton, List.not_mem_nil, or_false] at hl
      rcases hl with rfl | rfl | rfl
      · exact absurd ⟨by decide, by decide⟩ hinc
      · exact ⟨"var x int".toList, by decide⟩
      · exact absurd hv (by decide))

/-- C19 as stated fails: under every order of the rules the line `#include`
(eight bytes) begins with `#include` and is still emitted. -/
theorem C19_bare_include_refuted :
    "#include".toList <+: "#include".toList
      ∧ ¬ ∃ rules : List (Str × Str), rules.Perm OneToOne ∧
        (run rules ["#include".toList]).map Driver.out = .ok ["package gdl".toList] := by
  refine ⟨by decide, ?_⟩
  rintro ⟨rules, hperm, h⟩
  rw [run_eq_runCleaned] at h
  simp only [List.map_cons, List.map_nil] at h
  rw [BasicClean_fixed rules hperm "#include".toList "#include".toList (by decide)
    (by decide)] at h
  exact absurd h (by decide)

/-! ## C15 to C18: failing inputs -/

/-- The failing inputs of C15: `MatchVarDecl` accepts `int a=b` and
`int  a = b` (two spaces), both contain `=`, and `FixVarDecl` aborts on both
with an index out of range; under every order of the rules the driver aborts on
the line `int a=b;`. -/
theorem C15_assign_panics (rules : List (Str × Str)) (hperm : rules.Perm OneToOne) :
    (MatchVarDecl "int a=b".toList = true ∧ Contains "int a=b".toList '=' = true
        ∧ FixVarDecl "int a=b".toList = .error .indexOutOfRange)
      ∧ (MatchVarDecl "int  a = b".toList = true ∧ Contains "int  a = b".toList '=' = true
        ∧ FixVarDecl "int  a = b".toList = .error .indexOutOfRange)
      ∧ run rules ["int a=b;".toList] = .error .indexOutOfRange := by
  refine ⟨by decide, by decide, ?_⟩
  rw [run_eq_runCleaned]
  simp only [List.map_cons, List.map_nil]
  rw [BasicClean_fixed rules hperm "int a=b;".toList "int a=b".toList (by decide) (by decide)]
  decide

/-- Witness of C15 at the source order of the rules. -/
theorem C15_assign_panics_witness :
    (MatchVarDecl "int a=b".toList = true ∧ Contains "int a=b".toList '=' = true
        ∧ FixVarDecl "int a=b".toList = .error .indexOutOfRange)
      ∧ (MatchVarDecl "int  a = b".toList = true ∧ Contains "int  a = b".toList '=' = true
        ∧ FixVarDecl "int  a = b".toList = .error .indexOutOfRange)
      ∧ run OneToOne ["int a=b;".toList] = .error .indexOutOfRange :=
  C15_assign_panics OneToOne (List.Perm.refl _)

/-- The failing input of C16: `FixFuncParams` turns `myfunc(int a, int b)` into
`myfunc(a int,b int)`, with no space after the comma, and the header of its own
doc comment, `int myfunc(int a, int b) {`, into `int myfunc(a int,b int) {`. -/
theorem C16_comma_separator :
    FixFuncParams "myfunc(int a, int b)".toList = .ok "myfunc(a int,b int)".toList
      ∧ FixFuncParams "myfunc(int a, int b)".toList ≠ .ok "myfunc(a int, b int)".toList
      ∧ FixFuncParams "int myfunc(int a, int b) \x7b".toList
          = .ok "int myfunc(a int,b int) \x7b".toList
      ∧ (SwapTypeAndName "int a".toList = .ok "a int".toList
          ∧ SwapTypeAndName " int b".toList = .ok "b int".toList) := by
  decide

/-- The failing input of C17: the line `name() { `, with a space after its only
`{`, is accepted by `MatchScopeOpen`, and under every order of the rules the
lines `int` and `name() { ` emit `func name() { int {`, which contains two
`{`. -/
theorem C17_brace_kept (rules : List (Str × Str)) (hperm : rules.Perm OneToOne) :
    BasicClean rules "name() \x7b ".toList = "name() \x7b ".toList
      ∧ MatchScopeOpen "name() \x7b ".toList = true
      ∧ "name() \x7b ".toList.count '\x7b' = 1
      ∧ (run rules ["int".toList, "name() \x7b ".toList]).map Driver.out
          = .ok ["package gdl".toList, "func name() \x7b int \x7b".toList]
      ∧ "func name() \x7b int \x7b".toList.count '\x7b' = 2 := by
  have hc : BasicClean rules "name() \x7b ".toList = "name() \x7b ".toList :=
    BasicClean_fixed rules hperm _ _ (by decide) (by decide)
  refine ⟨hc, by decide, by decide, ?_, by decide⟩
  rw [run_eq_runCleaned]
  simp only [List.map_cons, List.map_nil]
  rw [hc, BasicClean_fixed rules hperm "int".toList "int".toList (by decide) (by decide)]
  decide

/-- Witness of C17 at the source order of the rules. -/
theorem C17_brace_kept_witness :
    BasicClean OneToOne "name() \x7b ".toList = "name() \x7b ".toList
      ∧ MatchScopeOpen "name() \x7b ".toList = true
      ∧ "name() \x7b ".toList.count '\x7b' = 1
      ∧ (run OneToOne ["int".toList, "name() \x7b ".toList]).map Driver.out
          = .ok ["package gdl".toList, "func name() \x7b int \x7b".toList]
      ∧ "func name() \x7b int \x7b".toList.count '\x7b' = 2 :=
  C17_brace_kept OneToOne (List.Perm.refl _)

/-- The failing input of C18: the element `unsigned int a` contains no `*`, and
`SwapTypeAndName` returns `a *unsigned`. -/
theorem C18_three_tokens_pointer :
    '*' ∉ "unsigned int a".toList
      ∧ SwapTypeAndName "unsigned int a".toList = .ok "a *unsigned".toList
      ∧ '*' ∈ "a *unsigned".toList := by
  decide

end GoTransl
